import Mathlib

/-!
# Verification of the pypp POSIX path engine

Shallow embedding of `src/posix/path.cpp` (free functions `join`, `normpath`,
`splitext`, `isabs`, the `PurePosixPath` value type and the lexical part of
`PosixPath::open`) together with the string helpers from `src/string.cpp`
that they use.  Strings are modelled as `List Char`; the path separator is
the single character `/`, matching `path::sep`.
-/

set_option autoImplicit false

namespace Pypp

/-- A C++ `std::string`, modelled as its character list. -/
abbrev Str := List Char

/-- The path separator character (`path::sep` is the one-character string "/"). -/
def sepC : Char := '/'

/-- `path::sep`, the separator as a string. -/
def sep : Str := [sepC]

/-- The literal ".." segment. -/
def dd : Str := ['.', '.']

/-- `str::startswith(str, prefix)`: `str.substr(0, prefix.length()) == prefix`,
which is exactly list-prefix. -/
def startswith (s t : Str) : Bool := List.isPrefixOf t s

/-- `str::endswith(str, suffix)`: false when the suffix is longer, otherwise
compare the tail of matching length. -/
def endswith (s t : Str) : Bool :=
  if t.length > s.length then false else s.drop (s.length - t.length) == t

/-- `str::split(str, sep)` for the one-character separator "/": splitting keeps
empty pieces, and the result is never the empty list. -/
def splitSep : Str → List Str
  | [] => [[]]
  | c :: cs =>
    if c = sepC then [] :: splitSep cs
    else
      match splitSep cs with
      | [] => [[c]]
      | t :: ts => (c :: t) :: ts

/-- `str::join(items, sep)`: first item, then `sep + item` for the rest.
(The C++ code reads `items.front()` and is only ever called on a non-empty
vector; we return `[]` for `[]`.) -/
def strJoin : List Str → Str
  | [] => []
  | x :: xs => xs.foldl (fun acc y => acc ++ sep ++ y) x

/-- `path::isabs(path)`: the path starts with the separator. -/
def isabs (path : Str) : Bool := startswith path sep

/-- Loop body of `path::join(parts)`: fold over the parts, restarting when a
part is absolute and inserting a separator before the next part unless the
accumulated text already ends with one.  `ps ≠ []` plays the role of
`iter != last`. -/
def pathJoinGo (joined : Str) : List Str → Str
  | [] => joined
  | p :: ps =>
    let j := if startswith p sep then p else joined ++ p
    let j2 := if !endswith j sep && !ps.isEmpty then j ++ sep else j
    pathJoinGo j2 ps

/-- `path::join(parts)`. -/
def pathJoin (parts : List Str) : Str := pathJoinGo [] parts

/-- Loop of `path::normpath`: walk the split segments with a signed `level`
counter and a result stack `parts`.  Empty and "." segments are skipped; ".."
decrements the level and pops when the level stays non-negative, is pushed
literally for a relative path when the level goes negative, and is discarded
for an absolute path; any other segment is pushed and increments the level. -/
def normLoop (abs : Bool) : Int → List Str → List Str → Int × List Str
  | level, parts, [] => (level, parts)
  | level, parts, item :: rest =>
    if item = [] ∨ item = ['.'] then normLoop abs level parts rest
    else if item = dd then
      if level - 1 ≥ 0 then normLoop abs (level - 1) parts.dropLast rest
      else if !abs then normLoop abs (level - 1) (parts ++ [dd]) rest
      else normLoop abs (level - 1) parts rest
    else normLoop abs (level + 1) (parts ++ [item]) rest

/-- `path::normpath(path)`. -/
def normpath (path : Str) : Str :=
  let parts := (normLoop (isabs path) 0 [] (splitSep path)).2
  let normed := pathJoin parts
  if isabs path then sep ++ normed
  else if normed.isEmpty then ['.']
  else normed

/-- Index of the last '.' in the string, if any (`path.rfind('.')`): a '.'
in the tail wins over one at the head. -/
def rfindDot : Str → Option Nat
  | [] => none
  | c :: cs =>
    match rfindDot cs with
    | some i => some (i + 1)
    | none => if c = '.' then some 0 else none

/-- `path::splitext(path)`: split at the last '.' unless it is absent or at
position 0. -/
def splitext (path : Str) : Str × Str :=
  match rfindDot path with
  | none => (path, [])
  | some 0 => (path, [])
  | some pos => (path.take pos, path.drop pos)

/-- The `PurePosixPath` value type: just its stored segment vector `parts_`.
Equality is segment-sequence equality (`operator==`). -/
structure PurePosixPath where
  parts : List Str
deriving DecidableEq

/-- The `PurePosixPath(string)` constructor: an absolute input contributes the
separator sentinel and loses its first character, the remainder is normalized
and split, and the split segments are appended unless they are the single
segment ".". -/
def fromString (path : Str) : PurePosixPath :=
  let pre : List Str := if isabs path then [sep] else []
  let rest : Str := if isabs path then path.drop 1 else path
  let ps := splitSep (normpath rest)
  ⟨if ps.length > 1 || !(ps.headD [] == ['.']) then pre ++ ps else pre⟩

/-- `PurePosixPath::is_absolute()`: the first stored segment is the separator. -/
def is_absolute (p : PurePosixPath) : Bool :=
  match p.parts with
  | [] => false
  | h :: _ => h == sep

/-- `PurePosixPath::operator std::string()`: join the segments (or "." when
there are none) and drop the doubled slash after an absolute sentinel. -/
def render (p : PurePosixPath) : Str :=
  let result := if p.parts.isEmpty then ['.'] else strJoin p.parts
  if is_absolute p && p.parts.length > 1 then result.drop 1 else result

/-- `PurePosixPath::joinpath(const PurePosixPath&)`: render both sides, join
the two strings and re-parse. -/
def joinpath (p q : PurePosixPath) : PurePosixPath :=
  fromString (pathJoin [render p, render q])

/-- `PurePosixPath::joinpath(const std::string&)` (also `operator/`). -/
def joinpathStr (p : PurePosixPath) (other : Str) : PurePosixPath :=
  fromString (pathJoin [render p, other])

/-- `PurePosixPath::is_root()`. -/
def is_root (p : PurePosixPath) : Bool :=
  p.parts.isEmpty || (p.parts.length == 1 && is_absolute p)

/-- `PurePosixPath::name()`: the last segment, or empty for a root. -/
def name (p : PurePosixPath) : Str :=
  if is_root p then [] else p.parts.getLastD []

/-- `PurePosixPath::parent()`: drop the last segment unless the path is a root. -/
def parent (p : PurePosixPath) : PurePosixPath :=
  if is_root p then p else ⟨p.parts.dropLast⟩

/-- Error taxonomy: `std::invalid_argument` vs OS-level `std::runtime_error`. -/
inductive PathError
  | invalidArgument
  | osFailure
deriving DecidableEq

/-- `PurePosixPath::relative_to(other)`: reject when `other` has more segments
or is not a segmentwise prefix; otherwise return the segments beyond the
common prefix. -/
def relative_to (p other : PurePosixPath) : Except PathError PurePosixPath :=
  if p.parts.length < other.parts.length then .error .invalidArgument
  else if !(List.isPrefixOf other.parts p.parts) && !other.parts.isEmpty then
    .error .invalidArgument
  else .ok ⟨p.parts.drop other.parts.length⟩

/-- `PurePosixPath::stem()`: the `splitext` root of the name, with the
solitary-dot result blanked and a trailing dot of the raw last segment
restored. -/
def stem (p : PurePosixPath) : Str :=
  let st := (splitext (name p)).1
  if st = ['.'] then []
  else if !p.parts.isEmpty && endswith (p.parts.getLastD []) ['.'] then st ++ ['.']
  else st

/-- `PurePosixPath::suffix()`: the `splitext` extension of the name, with the
solitary-dot result blanked. -/
def suffix (p : PurePosixPath) : Str :=
  let sf := (splitext (name p)).2
  if sf = ['.'] then [] else sf

/-- The `with_name` validation regex `^[^.][^/]*$`: one character that is not
'.', then any number of non-separator characters. -/
def validName (nm : Str) : Bool :=
  match nm with
  | [] => false
  | c :: rest => c != '.' && rest.all (fun x => x != sepC)

/-- `PurePosixPath::with_name(name)`. -/
def with_name (p : PurePosixPath) (nm : Str) : Except PathError PurePosixPath :=
  if !validName nm then .error .invalidArgument
  else if (name p).isEmpty then .error .invalidArgument
  else .ok (joinpathStr (parent p) nm)

/-- The `with_suffix` validation regex `^\.[^/]+$`. -/
def validSuffix (sfx : Str) : Bool :=
  match sfx with
  | [] => false
  | c :: rest => c == '.' && !rest.isEmpty && rest.all (fun x => x != sepC)

/-- `PurePosixPath::with_suffix(suffix)`. -/
def with_suffix (p : PurePosixPath) (sfx : Str) : Except PathError PurePosixPath :=
  if !(sfx.isEmpty || validSuffix sfx) then .error .invalidArgument
  else if (name p).isEmpty then .error .invalidArgument
  else .ok (joinpathStr (parent p) (stem p ++ sfx))

/-- `std::ios_base::openmode` flags relevant to `PosixPath::open`. -/
structure OpenFlags where
  input : Bool
  output : Bool
  trunc : Bool
  app : Bool
  binary : Bool
deriving DecidableEq

/-- Result of `PosixPath::open`: either the default-constructed (invalid)
`fstream()` or a stream opened with the given flags. -/
inductive OpenResult
  | invalidStream
  | stream (flags : OpenFlags)
deriving DecidableEq

/-- The `modes` map in `PosixPath::open`. -/
def modeFlags : Char → Option OpenFlags
  | 'r' => some ⟨true, false, false, false, false⟩
  | 'w' => some ⟨false, true, true, false, false⟩
  | 'x' => some ⟨false, true, true, false, false⟩
  | 'a' => some ⟨false, true, false, true, false⟩
  | _ => none

/-- `PosixPath::open(mode)` with the filesystem probe abstracted as the boolean
`ex` (= `exists()` on the rendered path): an unknown mode letter throws
`invalid_argument`; mode 'x' on an existing target returns the
default-constructed invalid stream; otherwise '+' adds read+write and a
trailing 'b' adds binary. -/
def openPath (ex : Bool) (mode : Str) : Except PathError OpenResult :=
  match modeFlags (mode.headD (Char.ofNat 0)) with
  | none => .error .invalidArgument
  | some f =>
    if mode.headD (Char.ofNat 0) == 'x' && ex then .ok .invalidStream
    else
      let f1 := if mode.length ≥ 2 && mode.get? 1 == some '+' then
        OpenFlags.mk true true f.trunc f.app f.binary else f
      let f2 := if endswith mode ['b'] then
        OpenFlags.mk f1.input f1.output f1.trunc f1.app true else f1
      .ok (.stream f2)

/-! ### Analysis vocabulary

The following definitions are not part of the source; they name the
quantities the normalization proofs track: the signed depth (`lvl`) of a
segment list, well-formed segments (`segOk`), and the normal form of a
relative segment list (`relNF`): every ".." occurs while the running depth
is non-positive. -/

/-- Depth contribution of one segment: ".." counts -1, anything else +1. -/
def segVal (x : Str) : Int := if x = dd then -1 else 1

/-- Signed depth of a segment list. -/
def lvl (P : List Str) : Int := (P.map segVal).sum

/-- A well-formed stored segment: non-empty, not ".", separator-free. -/
def segOk (x : Str) : Bool := !x.isEmpty && x != ['.'] && !x.contains sepC

/-- A fully resolved segment: `segOk` and not "..". -/
def normalSeg (x : Str) : Bool := segOk x && x != dd

/-- Normal form of a relative segment list scanned from depth `l`: each ".."
occurs at depth ≤ 0 (so the loop will push it again rather than pop). -/
def relNF : Int → List Str → Bool
  | _, [] => true
  | l, x :: r => if x = dd then decide (l ≤ 0) && relNF (l - 1) r else relNF (l + 1) r

/-- Canonical separator-joined rendering of a segment list (reference form of
both `str::join` and `path::join` on well-formed segments). -/
def interJoin : List Str → Str
  | [] => []
  | [x] => x
  | x :: y :: r => x ++ sepC :: interJoin (y :: r)

/-- The segment stack produced by the `normpath` loop on the split input. -/
def nparts (abs : Bool) (s : Str) : List Str := (normLoop abs 0 [] (splitSep s)).2

/-- "A relative path retains '..' segments only when they are leading":
after the leading run of ".." segments, no further ".." occurs. -/
def leadingOnly (P : List Str) : Bool :=
  (P.dropWhile (fun x => x == dd)).all (fun x => x != dd)

/-- The constructor invariant exactly as the specification claims it (C2):
no stored segment is empty or "."; an absolute path retains no ".."
segment; a relative path retains ".." segments only in leading position. -/
def claimedInv (p : PurePosixPath) : Bool :=
  p.parts.all (fun x => !x.isEmpty && x != ['.']) &&
  (if is_absolute p then p.parts.all (fun x => x != dd) else leadingOnly p.parts)

end Pypp

namespace Pypp

/-! ### Splitting and joining -/

theorem splitSep_ne_nil (s : Str) : splitSep s ≠ [] := by
  induction s with
  | nil => simp [splitSep]
  | cons c cs ih =>
    simp only [splitSep]
    split
    · simp
    · cases h : splitSep cs with
      | nil => simp
      | cons t ts => simp

theorem splitSep_no_sep (s : Str) (h : sepC ∉ s) : splitSep s = [s] := by
  induction s with
  | nil => rfl
  | cons c cs ih =>
    have hc : ¬ c = sepC := by
      intro hc; exact h (hc ▸ List.mem_cons_self c cs)
    have hcs : sepC ∉ cs := fun hm => h (List.mem_cons_of_mem c hm)
    simp only [splitSep, if_neg hc, ih hcs]

theorem splitSep_sep_cons (t : Str) : splitSep (sepC :: t) = [] :: splitSep t := by
  simp [splitSep]

theorem splitSep_append_sep (x t : Str) (h : sepC ∉ x) :
    splitSep (x ++ sepC :: t) = x :: splitSep t := by
  induction x with
  | nil => simpa using splitSep_sep_cons t
  | cons c x' ih =>
    have hc : ¬ c = sepC := by
      intro hc; exact h (hc ▸ List.mem_cons_self c x')
    have hx' : sepC ∉ x' := fun hm => h (List.mem_cons_of_mem c hm)
    simp only [List.cons_append, splitSep, if_neg hc]
    rw [show x'.append (sepC :: t) = x' ++ sepC :: t from rfl, ih hx']

theorem mem_splitSep_no_sep (s : Str) (x : Str) (hx : x ∈ splitSep s) : sepC ∉ x := by
  induction s generalizing x with
  | nil =>
    simp only [splitSep, List.mem_singleton] at hx
    subst hx; simp
  | cons c cs ih =>
    simp only [splitSep] at hx
    by_cases hc : c = sepC
    · rw [if_pos hc] at hx
      rcases List.mem_cons.mp hx with h1 | h1
      · subst h1; simp
      · exact ih x h1
    · rw [if_neg hc] at hx
      cases hs : splitSep cs with
      | nil => exact absurd hs (splitSep_ne_nil cs)
      | cons t ts =>
        rw [hs] at hx
        rcases List.mem_cons.mp hx with h1 | h1
        · subst h1
          intro hmem
          rcases List.mem_cons.mp hmem with h2 | h2
          · exact hc h2.symm
          · exact ih t (hs ▸ List.mem_cons_self t ts) h2
        · exact ih x (hs ▸ List.mem_cons_of_mem t h1)

theorem interJoin_cons₂ (x y : Str) (r : List Str) :
    interJoin (x :: y :: r) = x ++ sepC :: interJoin (y :: r) := rfl

theorem splitSep_interJoin (P : List Str) (h : P ≠ [])
    (hs : ∀ x ∈ P, sepC ∉ x) : splitSep (interJoin P) = P := by
  induction P with
  | nil => exact absurd rfl h
  | cons x r ih =>
    cases r with
    | nil => exact splitSep_no_sep x (hs x (List.mem_cons_self x []))
    | cons y r' =>
      rw [interJoin_cons₂, splitSep_append_sep x _ (hs x (List.mem_cons_self x _))]
      rw [ih (by simp) (fun z hz => hs z (List.mem_cons_of_mem x hz))]

theorem splitSep_interJoin_sep (P : List Str) (u : Str) (h : P ≠ [])
    (hs : ∀ x ∈ P, sepC ∉ x) :
    splitSep (interJoin P ++ sepC :: u) = P ++ splitSep u := by
  induction P with
  | nil => exact absurd rfl h
  | cons x r ih =>
    cases r with
    | nil =>
      simpa using splitSep_append_sep x u (hs x (List.mem_cons_self x []))
    | cons y r' =>
      rw [interJoin_cons₂, List.append_assoc, List.cons_append,
        splitSep_append_sep x _ (hs x (List.mem_cons_self x _))]
      rw [ih (by simp) (fun z hz => hs z (List.mem_cons_of_mem x hz))]
      rfl

theorem interJoin_append (P R : List Str) (hP : P ≠ []) (hR : R ≠ []) :
    interJoin (P ++ R) = interJoin P ++ sepC :: interJoin R := by
  induction P with
  | nil => exact absurd rfl hP
  | cons x r ih =>
    cases r with
    | nil =>
      cases R with
      | nil => exact absurd rfl hR
      | cons z zs => rfl
    | cons y r' =>
      have h1 := ih (by simp)
      rw [List.cons_append] at h1
      rw [List.cons_append, List.cons_append, interJoin_cons₂ x y (r' ++ R),
        interJoin_cons₂ x y r', h1]
      simp

theorem interJoin_shift (x y : Str) (r : List Str) :
    interJoin ((x ++ sep ++ y) :: r) = x ++ sepC :: interJoin (y :: r) := by
  cases r with
  | nil => simp [interJoin, sep]
  | cons z zs =>
    rw [interJoin_cons₂, interJoin_cons₂]
    simp [sep]

theorem strJoin_eq_interJoin (P : List Str) : strJoin P = interJoin P := by
  cases P with
  | nil => rfl
  | cons x xs =>
    show xs.foldl (fun acc y => acc ++ sep ++ y) x = interJoin (x :: xs)
    induction xs generalizing x with
    | nil => rfl
    | cons y r ih =>
      rw [List.foldl_cons, ih (x ++ sep ++ y), interJoin_shift]
      exact (interJoin_cons₂ x y r).symm

/-! ### Separator tests on well-formed strings -/

theorem startswith_sep_cons (t : Str) : startswith (sepC :: t) sep = true := by
  simp [startswith, sep, List.isPrefixOf]

theorem startswith_no_sep (x : Str) (hs : sepC ∉ x) : startswith x sep = false := by
  cases x with
  | nil => rfl
  | cons c t =>
    have hc : ¬ sepC = c := fun e => hs (e ▸ List.mem_cons_self c t)
    simp [startswith, sep, List.isPrefixOf, hc]

theorem startswith_append_no_sep (x t : Str) (hx : x ≠ []) (hs : sepC ∉ x) :
    startswith (x ++ t) sep = false := by
  cases x with
  | nil => exact absurd rfl hx
  | cons c x' =>
    have hc : ¬ sepC = c := fun e => hs (e ▸ List.mem_cons_self c x')
    simp [startswith, sep, List.isPrefixOf, hc]

theorem endswith_concat (u : Str) (c : Char) : endswith (u ++ [c]) sep = (c == sepC) := by
  unfold endswith sep
  have h1 : ¬ ([sepC].length > (u ++ [c]).length) := by simp
  rw [if_neg h1]
  have h2 : (u ++ [c]).length - [sepC].length = u.length := by simp
  rw [h2, List.drop_left]
  rw [show ([c] == [sepC]) = ((c == sepC) && true) from rfl, Bool.and_true]

theorem endswith_append_no_sep (acc x : Str) (hx : x ≠ []) (hs : sepC ∉ x) :
    endswith (acc ++ x) sep = false := by
  have hxx := List.dropLast_append_getLast hx
  rw [← hxx, ← List.append_assoc, endswith_concat]
  have : x.getLast hx ≠ sepC := fun e => hs (e ▸ List.getLast_mem hx)
  simpa using this

theorem endswith_no_sep (x : Str) (hx : x ≠ []) (hs : sepC ∉ x) :
    endswith x sep = false := by
  have := endswith_append_no_sep [] x hx hs
  simpa using this

theorem endswith_sep_append (j : Str) : endswith (j ++ sep) sep = true := by
  have := endswith_concat j sepC
  simpa using this

/-! ### `path::join` on well-formed segments -/

theorem pathJoinGo_acc (P : List Str) (hP : P ≠ [])
    (hseg : ∀ x ∈ P, x ≠ [] ∧ sepC ∉ x) :
    ∀ acc, pathJoinGo acc P = acc ++ interJoin P := by
  induction P with
  | nil => exact absurd rfl hP
  | cons x r ih =>
    intro acc
    obtain ⟨hx1, hx2⟩ := hseg x (List.mem_cons_self x r)
    have hst : startswith x sep = false := startswith_no_sep x hx2
    cases r with
    | nil => simp [pathJoinGo, hst, interJoin]
    | cons y r' =>
      have hend : endswith (acc ++ x) sep = false := endswith_append_no_sep acc x hx1 hx2
      rw [pathJoinGo, hst]
      simp only [Bool.false_eq_true, if_false, hend, List.isEmpty_cons, Bool.not_false,
        Bool.and_self, if_true]
      rw [ih (by simp) (fun z hz => hseg z (List.mem_cons_of_mem x hz)) (acc ++ x ++ sep)]
      rw [interJoin_cons₂]
      simp [sep]

theorem pathJoin_eq_interJoin (P : List Str)
    (hseg : ∀ x ∈ P, x ≠ [] ∧ sepC ∉ x) : pathJoin P = interJoin P := by
  cases P with
  | nil => rfl
  | cons x r =>
    have := pathJoinGo_acc (x :: r) (by simp) hseg []
    simpa [pathJoin] using this

theorem pathJoin_pair_abs (a b : Str) (h : startswith b sep = true) :
    pathJoin [a, b] = b := by
  by_cases h2 : endswith (if startswith a sep = true then a else [] ++ a) sep = true <;>
    simp [pathJoin, pathJoinGo, h, h2]

theorem pathJoin_pair_rel (a b : Str) (hb : startswith b sep = false) :
    pathJoin [a, b] = (if endswith a sep then a else a ++ sep) ++ b := by
  by_cases hE : endswith a sep <;> simp [pathJoin, pathJoinGo, hb, hE]

/-! ### Depth and normal form -/

theorem lvl_nil : lvl [] = 0 := rfl

theorem lvl_concat (P : List Str) (x : Str) : lvl (P ++ [x]) = lvl P + segVal x := by
  simp [lvl]

theorem segVal_dd : segVal dd = -1 := by simp [segVal]

theorem segVal_ne_dd (x : Str) (h : x ≠ dd) : segVal x = 1 := by simp [segVal, h]

theorem segOk_of (x : Str) (h1 : x ≠ []) (h2 : x ≠ ['.']) (h3 : sepC ∉ x) :
    segOk x = true := by
  simp [segOk, h1, h2, h3]

theorem segOk_spec (x : Str) (h : segOk x = true) : x ≠ [] ∧ x ≠ ['.'] ∧ sepC ∉ x := by
  have h' : (¬ x = [] ∧ ¬ x = ['.']) ∧ sepC ∉ x := by simpa [segOk] using h
  exact ⟨h'.1.1, h'.1.2, h'.2⟩

theorem normalSeg_spec (x : Str) (h : normalSeg x = true) :
    x ≠ [] ∧ x ≠ ['.'] ∧ sepC ∉ x ∧ x ≠ dd := by
  have h1 : segOk x = true ∧ x ≠ dd := by simpa [normalSeg] using h
  exact ⟨(segOk_spec x h1.1).1, (segOk_spec x h1.1).2.1, (segOk_spec x h1.1).2.2, h1.2⟩

theorem relNF_cons_dd (l : Int) (r : List Str) :
    relNF l (dd :: r) = (decide (l ≤ 0) && relNF (l - 1) r) := by
  simp [relNF]

theorem relNF_cons_ne (l : Int) (x : Str) (r : List Str) (h : x ≠ dd) :
    relNF l (x :: r) = relNF (l + 1) r := by
  simp [relNF, h]

theorem relNF_append_dd (P : List Str) : ∀ l : Int, relNF l P = true →
    l + lvl P ≤ 0 → relNF l (P ++ [dd]) = true := by
  induction P with
  | nil =>
    intro l _ hl
    simp only [lvl_nil, Int.add_zero] at hl
    simpa [relNF] using hl
  | cons x r ih =>
    intro l h hl
    by_cases hx : x = dd
    · subst hx
      rw [relNF_cons_dd] at h
      rw [List.cons_append, relNF_cons_dd]
      simp only [Bool.and_eq_true, decide_eq_true_eq] at h ⊢
      refine ⟨h.1, ih (l - 1) h.2 ?_⟩
      have : lvl (dd :: r) = -1 + lvl r := by simp [lvl, segVal]
      omega
    · rw [relNF_cons_ne _ _ _ hx] at h
      rw [List.cons_append, relNF_cons_ne _ _ _ hx]
      refine ih (l + 1) h ?_
      have : lvl (x :: r) = segVal x + lvl r := by simp [lvl]
      have hv : segVal x = 1 := segVal_ne_dd x hx
      omega

theorem relNF_append_seg (P : List Str) (z : Str) (hz : z ≠ dd) :
    ∀ l : Int, relNF l P = true → relNF l (P ++ [z]) = true := by
  induction P with
  | nil =>
    intro l _
    simp [relNF, hz]
  | cons x r ih =>
    intro l h
    by_cases hx : x = dd
    · subst hx
      rw [relNF_cons_dd] at h
      rw [List.cons_append, relNF_cons_dd]
      simp only [Bool.and_eq_true, decide_eq_true_eq] at h ⊢
      exact ⟨h.1, ih (l - 1) h.2⟩
    · rw [relNF_cons_ne _ _ _ hx] at h
      rw [List.cons_append, relNF_cons_ne _ _ _ hx]
      exact ih (l + 1) h

theorem relNF_of_append (P : List Str) (z : Str) :
    ∀ l : Int, relNF l (P ++ [z]) = true → relNF l P = true := by
  induction P with
  | nil => intro l _; rfl
  | cons x r ih =>
    intro l h
    by_cases hx : x = dd
    · subst hx
      rw [List.cons_append, relNF_cons_dd] at h
      rw [relNF_cons_dd]
      simp only [Bool.and_eq_true, decide_eq_true_eq] at h ⊢
      exact ⟨h.1, ih (l - 1) h.2⟩
    · rw [List.cons_append, relNF_cons_ne _ _ _ hx] at h
      rw [relNF_cons_ne _ _ _ hx]
      exact ih (l + 1) h

theorem lvl_of_relNF_append_dd (P : List Str) :
    ∀ l : Int, relNF l (P ++ [dd]) = true → l + lvl P ≤ 0 := by
  induction P with
  | nil =>
    intro l h
    rw [List.nil_append, relNF_cons_dd] at h
    simp only [Bool.and_eq_true, decide_eq_true_eq] at h
    simpa [lvl] using h.1
  | cons x r ih =>
    intro l h
    by_cases hx : x = dd
    · subst hx
      rw [List.cons_append, relNF_cons_dd] at h
      simp only [Bool.and_eq_true, decide_eq_true_eq] at h
      have := ih (l - 1) h.2
      have hv : lvl (dd :: r) = -1 + lvl r := by simp [lvl, segVal]
      omega
    · rw [List.cons_append, relNF_cons_ne _ _ _ hx] at h
      have := ih (l + 1) h
      have hv : lvl (x :: r) = segVal x + lvl r := by simp [lvl]
      have hv1 : segVal x = 1 := segVal_ne_dd x hx
      omega

/-! ### Step equations of the normalization loop -/

theorem normLoop_nil (abs : Bool) (l : Int) (P : List Str) :
    normLoop abs l P [] = (l, P) := rfl

theorem normLoop_skip (abs : Bool) (l : Int) (P rest : List Str) (x : Str)
    (h : x = [] ∨ x = ['.']) :
    normLoop abs l P (x :: rest) = normLoop abs l P rest := by
  simp only [normLoop, if_pos h]

theorem normLoop_dd_pop (abs : Bool) (l : Int) (P rest : List Str)
    (h : l - 1 ≥ 0) :
    normLoop abs l P (dd :: rest) = normLoop abs (l - 1) P.dropLast rest := by
  have h0 : ¬ (dd = [] ∨ dd = ['.']) := by decide
  simp only [normLoop, if_neg h0, if_pos rfl, if_pos h]
  simp

theorem normLoop_dd_push (l : Int) (P rest : List Str) (h : ¬ l - 1 ≥ 0) :
    normLoop false l P (dd :: rest) = normLoop false (l - 1) (P ++ [dd]) rest := by
  have h0 : ¬ (dd = [] ∨ dd = ['.']) := by decide
  simp only [normLoop, if_neg h0, if_pos rfl, if_neg h, Bool.not_false, if_pos rfl]
  simp

theorem normLoop_dd_drop (l : Int) (P rest : List Str) (h : ¬ l - 1 ≥ 0) :
    normLoop true l P (dd :: rest) = normLoop true (l - 1) P rest := by
  have h0 : ¬ (dd = [] ∨ dd = ['.']) := by decide
  simp only [normLoop, if_neg h0, if_pos rfl, if_neg h, Bool.not_true]
  simp

theorem normLoop_push (abs : Bool) (l : Int) (P rest : List Str) (x : Str)
    (h1 : ¬ (x = [] ∨ x = ['.'])) (h2 : ¬ x = dd) :
    normLoop abs l P (x :: rest) = normLoop abs (l + 1) (P ++ [x]) rest := by
  simp only [normLoop, if_neg h1, if_neg h2]

theorem lvl_cons (x : Str) (r : List Str) : lvl (x :: r) = segVal x + lvl r := by
  simp [lvl]

/-! ### Runs of the normalization loop -/

theorem normLoop_rel_append (T rest : List Str) :
    ∀ (l : Int) (P : List Str), relNF l T = true →
    (∀ x ∈ T, ¬ (x = [] ∨ x = ['.'])) →
    normLoop false l P (T ++ rest) = normLoop false (l + lvl T) (P ++ T) rest := by
  induction T with
  | nil => intro l P _ _; simp [lvl]
  | cons x T' ih =>
    intro l P hNF hsk
    have hx := hsk x (List.mem_cons_self x T')
    have hsk' : ∀ z ∈ T', ¬ (z = [] ∨ z = ['.']) :=
      fun z hz => hsk z (List.mem_cons_of_mem x hz)
    by_cases hdd : x = dd
    · subst hdd
      rw [relNF_cons_dd] at hNF
      simp only [Bool.and_eq_true, decide_eq_true_eq] at hNF
      have hpop : ¬ (l - 1 ≥ 0) := by omega
      rw [List.cons_append, normLoop_dd_push l P _ hpop,
        ih (l - 1) (P ++ [dd]) hNF.2 hsk',
        show l - 1 + lvl T' = l + lvl (dd :: T') from by rw [lvl_cons, segVal_dd]; ring,
        show (P ++ [dd]) ++ T' = P ++ dd :: T' from by simp]
    · rw [relNF_cons_ne _ _ _ hdd] at hNF
      rw [List.cons_append, normLoop_push false l P _ x hx hdd,
        ih (l + 1) (P ++ [x]) hNF hsk',
        show l + 1 + lvl T' = l + lvl (x :: T') from by
          rw [lvl_cons, segVal_ne_dd x hdd]; ring,
        show (P ++ [x]) ++ T' = P ++ x :: T' from by simp]

theorem normLoop_all_normal (items : List Str) (h : ∀ x ∈ items, normalSeg x = true)
    (abs : Bool) : ∀ (l : Int) (P : List Str),
    normLoop abs l P items = (l + items.length, P ++ items) := by
  induction items with
  | nil => intro l P; simp [normLoop_nil]
  | cons x r ih =>
    intro l P
    obtain ⟨h1, h2, _, h4⟩ := normalSeg_spec x (h x (List.mem_cons_self x r))
    have hsk : ¬ (x = [] ∨ x = ['.']) := by
      rintro (e | e)
      · exact h1 e
      · exact h2 e
    rw [normLoop_push abs l P r x hsk h4,
      ih (fun z hz => h z (List.mem_cons_of_mem x hz)) (l + 1) (P ++ [x])]
    rw [Prod.mk.injEq]
    constructor
    · simp only [List.length_cons]
      push_cast
      ring
    · simp

theorem normLoop_rel_inv (items : List Str) (hsep : ∀ x ∈ items, sepC ∉ x) :
    ∀ (l : Int) (P : List Str), lvl P = l → relNF 0 P = true →
    (∀ x ∈ P, segOk x = true) →
    lvl (normLoop false l P items).2 = (normLoop false l P items).1 ∧
    relNF 0 (normLoop false l P items).2 = true ∧
    (∀ x ∈ (normLoop false l P items).2, segOk x = true) := by
  induction items with
  | nil => intro l P h1 h2 h3; exact ⟨h1, h2, h3⟩
  | cons x r ih =>
    intro l P h1 h2 h3
    have hsep' : ∀ z ∈ r, sepC ∉ z := fun z hz => hsep z (List.mem_cons_of_mem x hz)
    have hsx : sepC ∉ x := hsep x (List.mem_cons_self x r)
    by_cases hsk : x = [] ∨ x = ['.']
    · rw [normLoop_skip false l P r x hsk]
      exact ih hsep' l P h1 h2 h3
    by_cases hdd : x = dd
    · subst hdd
      by_cases hpop : l - 1 ≥ 0
      · rw [normLoop_dd_pop false l P r hpop]
        have hPne : P ≠ [] := by
          intro e
          rw [e] at h1
          simp [lvl] at h1
          omega
        have hPsplit := List.dropLast_append_getLast hPne
        have hlast : P.getLast hPne ≠ dd := by
          intro e
          have h2' : relNF 0 (P.dropLast ++ [dd]) = true := by
            rw [← e, hPsplit]; exact h2
          have hle := lvl_of_relNF_append_dd P.dropLast 0 h2'
          have : lvl P = lvl P.dropLast + segVal (P.getLast hPne) := by
            conv_lhs => rw [← hPsplit]
            rw [lvl_concat]
          rw [e, segVal_dd] at this
          omega
        have hlvl' : lvl P.dropLast = l - 1 := by
          have : lvl P = lvl P.dropLast + segVal (P.getLast hPne) := by
            conv_lhs => rw [← hPsplit]
            rw [lvl_concat]
          rw [segVal_ne_dd _ hlast] at this
          omega
        have hNF' : relNF 0 P.dropLast = true := by
          refine relNF_of_append P.dropLast (P.getLast hPne) 0 ?_
          rw [hPsplit]; exact h2
        have hok' : ∀ z ∈ P.dropLast, segOk z = true := fun z hz =>
          h3 z ((List.dropLast_sublist P).mem hz)
        exact ih hsep' (l - 1) P.dropLast hlvl' hNF' hok'
      · rw [normLoop_dd_push l P r hpop]
        have hlvl' : lvl (P ++ [dd]) = l - 1 := by rw [lvl_concat, segVal_dd, h1]; ring
        have hNF' : relNF 0 (P ++ [dd]) = true :=
          relNF_append_dd P 0 h2 (by omega)
        have hok' : ∀ z ∈ P ++ [dd], segOk z = true := by
          intro z hz
          rcases List.mem_append.mp hz with hz | hz
          · exact h3 z hz
          · rw [List.mem_singleton.mp hz]; decide
        exact ih hsep' (l - 1) (P ++ [dd]) hlvl' hNF' hok'
    · rw [normLoop_push false l P r x hsk hdd]
      have hx1 : x ≠ [] := fun e => hsk (Or.inl e)
      have hx2 : x ≠ ['.'] := fun e => hsk (Or.inr e)
      have hlvl' : lvl (P ++ [x]) = l + 1 := by
        rw [lvl_concat, segVal_ne_dd x hdd, h1]
      have hNF' : relNF 0 (P ++ [x]) = true := relNF_append_seg P x hdd 0 h2
      have hok' : ∀ z ∈ P ++ [x], segOk z = true := by
        intro z hz
        rcases List.mem_append.mp hz with hz | hz
        · exact h3 z hz
        · rw [List.mem_singleton.mp hz]; exact segOk_of x hx1 hx2 hsx
      exact ih hsep' (l + 1) (P ++ [x]) hlvl' hNF' hok'

theorem normLoop_abs_inv (items : List Str) (hsep : ∀ x ∈ items, sepC ∉ x) :
    ∀ (l : Int) (P : List Str), l ≤ lvl P → (∀ x ∈ P, normalSeg x = true) →
    (normLoop true l P items).1 ≤ lvl (normLoop true l P items).2 ∧
    (∀ x ∈ (normLoop true l P items).2, normalSeg x = true) := by
  induction items with
  | nil => intro l P h1 h2; exact ⟨h1, h2⟩
  | cons x r ih =>
    intro l P h1 h2
    have hsep' : ∀ z ∈ r, sepC ∉ z := fun z hz => hsep z (List.mem_cons_of_mem x hz)
    have hsx : sepC ∉ x := hsep x (List.mem_cons_self x r)
    by_cases hsk : x = [] ∨ x = ['.']
    · rw [normLoop_skip true l P r x hsk]
      exact ih hsep' l P h1 h2
    by_cases hdd : x = dd
    · subst hdd
      by_cases hpop : l - 1 ≥ 0
      · rw [normLoop_dd_pop true l P r hpop]
        have hPne : P ≠ [] := by
          intro e
          rw [e] at h1
          simp [lvl] at h1
          omega
        have hPsplit := List.dropLast_append_getLast hPne
        have hlast : P.getLast hPne ≠ dd := by
          intro e
          have := normalSeg_spec _ (h2 _ (List.getLast_mem hPne))
          exact this.2.2.2 e
        have hlvl' : l - 1 ≤ lvl P.dropLast := by
          have : lvl P = lvl P.dropLast + segVal (P.getLast hPne) := by
            conv_lhs => rw [← hPsplit]
            rw [lvl_concat]
          rw [segVal_ne_dd _ hlast] at this
          omega
        have hok' : ∀ z ∈ P.dropLast, normalSeg z = true := fun z hz =>
          h2 z ((List.dropLast_sublist P).mem hz)
        exact ih hsep' (l - 1) P.dropLast hlvl' hok'
      · rw [normLoop_dd_drop l P r hpop]
        exact ih hsep' (l - 1) P (by omega) h2
    · rw [normLoop_push true l P r x hsk hdd]
      have hx1 : x ≠ [] := fun e => hsk (Or.inl e)
      have hx2 : x ≠ ['.'] := fun e => hsk (Or.inr e)
      have hlvl' : l + 1 ≤ lvl (P ++ [x]) := by
        rw [lvl_concat, segVal_ne_dd x hdd]
        omega
      have hok' : ∀ z ∈ P ++ [x], normalSeg z = true := by
        intro z hz
        rcases List.mem_append.mp hz with hz | hz
        · exact h2 z hz
        · rw [List.mem_singleton.mp hz]
          have : segOk x = true := segOk_of x hx1 hx2 hsx
          simp [normalSeg, this, hdd]
      exact ih hsep' (l + 1) (P ++ [x]) hlvl' hok'

/-! ### The parts produced by `normpath` -/

theorem nparts_rel_inv (s : Str) :
    lvl (nparts false s) = (normLoop false 0 [] (splitSep s)).1 ∧
    relNF 0 (nparts false s) = true ∧
    (∀ x ∈ nparts false s, segOk x = true) :=
  normLoop_rel_inv (splitSep s) (mem_splitSep_no_sep s) 0 [] rfl rfl (by simp)

theorem nparts_abs_normal (s : Str) : ∀ x ∈ nparts true s, normalSeg x = true :=
  (normLoop_abs_inv (splitSep s) (mem_splitSep_no_sep s) 0 [] (by simp [lvl])
    (by simp)).2

theorem interJoin_ne_nil (P : List Str) (hP : P ≠ []) (hx : ∀ x ∈ P, x ≠ []) :
    interJoin P ≠ [] := by
  cases P with
  | nil => exact absurd rfl hP
  | cons x r =>
    cases r with
    | nil => exact hx x (List.mem_cons_self x [])
    | cons y r' =>
      rw [interJoin_cons₂]
      rcases x with _ | ⟨c, t⟩ <;> simp

theorem segOk_join_pre (P : List Str) (hok : ∀ x ∈ P, segOk x = true) :
    ∀ x ∈ P, x ≠ [] ∧ sepC ∉ x := by
  intro x hx
  obtain ⟨h1, _, h3⟩ := segOk_spec x (hok x hx)
  exact ⟨h1, h3⟩

theorem normalSeg_join_pre (P : List Str) (hok : ∀ x ∈ P, normalSeg x = true) :
    ∀ x ∈ P, x ≠ [] ∧ sepC ∉ x := by
  intro x hx
  obtain ⟨h1, _, h3, _⟩ := normalSeg_spec x (hok x hx)
  exact ⟨h1, h3⟩

theorem normpath_rel (s : Str) (h : isabs s = false) :
    normpath s =
      if nparts false s = [] then ['.'] else interJoin (nparts false s) := by
  have hjoin : pathJoin (nparts false s) = interJoin (nparts false s) :=
    pathJoin_eq_interJoin _ (segOk_join_pre _ (nparts_rel_inv s).2.2)
  show (let parts := (normLoop (isabs s) 0 [] (splitSep s)).2
        let normed := pathJoin parts
        if isabs s then sep ++ normed
        else if normed.isEmpty then ['.'] else normed) = _
  rw [h]
  show (if (pathJoin (nparts false s)).isEmpty = true then ['.']
        else pathJoin (nparts false s)) = _
  by_cases hP : nparts false s = []
  · rw [if_pos hP, hP]
    rfl
  · rw [if_neg hP, hjoin]
    have hne : interJoin (nparts false s) ≠ [] :=
      interJoin_ne_nil _ hP (fun x hx => (segOk_spec x ((nparts_rel_inv s).2.2 x hx)).1)
    simp [List.isEmpty_iff, hne]

theorem normpath_abs (s : Str) (h : isabs s = true) :
    normpath s = sepC :: interJoin (nparts true s) := by
  have hjoin : pathJoin (nparts true s) = interJoin (nparts true s) :=
    pathJoin_eq_interJoin _ (normalSeg_join_pre _ (nparts_abs_normal s))
  show (let parts := (normLoop (isabs s) 0 [] (splitSep s)).2
        let normed := pathJoin parts
        if isabs s then sep ++ normed
        else if normed.isEmpty then ['.'] else normed) = _
  rw [h]
  show sep ++ pathJoin (nparts true s) = _
  rw [hjoin]
  rfl

theorem isabs_interJoin (P : List Str) (hseg : ∀ x ∈ P, segOk x = true) :
    isabs (interJoin P) = false := by
  cases P with
  | nil => rfl
  | cons x r =>
    obtain ⟨h1, _, h3⟩ := segOk_spec x (hseg x (List.mem_cons_self x r))
    cases r with
    | nil => exact startswith_no_sep x h3
    | cons y r' =>
      rw [interJoin_cons₂]
      exact startswith_append_no_sep x _ h1 h3

theorem nparts_rel_fix (P : List Str) (hok : ∀ x ∈ P, segOk x = true)
    (hNF : relNF 0 P = true) : nparts false (interJoin P) = P := by
  cases P with
  | nil => rfl
  | cons x r =>
    have hsplit : splitSep (interJoin (x :: r)) = x :: r :=
      splitSep_interJoin _ (by simp)
        (fun z hz => (segOk_spec z (hok z hz)).2.2)
    have hsk : ∀ z ∈ x :: r, ¬ (z = [] ∨ z = ['.']) := by
      intro z hz
      obtain ⟨h1, h2, _⟩ := segOk_spec z (hok z hz)
      rintro (e | e)
      · exact h1 e
      · exact h2 e
    show (normLoop false 0 [] (splitSep (interJoin (x :: r)))).2 = x :: r
    rw [hsplit, show (x :: r) = (x :: r) ++ [] from by simp,
      normLoop_rel_append (x :: r) [] 0 [] hNF hsk]
    simp [normLoop_nil]

theorem normpath_rel_fix (P : List Str) (hok : ∀ x ∈ P, segOk x = true)
    (hNF : relNF 0 P = true) (hne : P ≠ []) :
    normpath (interJoin P) = interJoin P := by
  rw [normpath_rel _ (isabs_interJoin P hok), nparts_rel_fix P hok hNF, if_neg hne]

theorem nparts_abs_fix (S : List Str) (hok : ∀ x ∈ S, normalSeg x = true) :
    nparts true (sepC :: interJoin S) = S := by
  cases S with
  | nil => rfl
  | cons x r =>
    have hsplit : splitSep (interJoin (x :: r)) = x :: r :=
      splitSep_interJoin _ (by simp)
        (fun z hz => (normalSeg_spec z (hok z hz)).2.2.1)
    show (normLoop true 0 [] (splitSep (sepC :: interJoin (x :: r)))).2 = x :: r
    rw [splitSep_sep_cons, hsplit,
      normLoop_skip true 0 [] (x :: r) [] (Or.inl rfl),
      normLoop_all_normal (x :: r) hok true 0 []]
    simp

theorem normpath_abs_fix (S : List Str) (hok : ∀ x ∈ S, normalSeg x = true) :
    normpath (sepC :: interJoin S) = sepC :: interJoin S := by
  have habs : isabs (sepC :: interJoin S) = true := startswith_sep_cons _
  rw [normpath_abs _ habs, nparts_abs_fix S hok]

theorem normpath_idem (s : Str) : normpath (normpath s) = normpath s := by
  by_cases h : isabs s = true
  · rw [normpath_abs s h]
    exact normpath_abs_fix _ (nparts_abs_normal s)
  · have h' : isabs s = false := by simpa using h
    rw [normpath_rel s h']
    by_cases hP : nparts false s = []
    · rw [if_pos hP]
      decide
    · rw [if_neg hP]
      exact normpath_rel_fix _ (nparts_rel_inv s).2.2 (nparts_rel_inv s).2.1 hP

/-! ### The segments stored by the constructor -/

theorem keep_cond_true (P : List Str) (hne : P ≠ [])
    (hhead : P.headD [] ≠ ['.']) :
    (P.length > 1 || !(P.headD [] == ['.'])) = true := by
  cases P with
  | nil => exact absurd rfl hne
  | cons x r =>
    cases r with
    | nil =>
      simp only [List.headD_cons] at hhead ⊢
      rw [show (x == ['.']) = false from beq_eq_false_iff_ne.mpr hhead]
      simp
    | cons y r' => simp

theorem fromString_rel (s : Str) (h : isabs s = false) :
    (fromString s).parts = nparts false s := by
  simp only [fromString, h, Bool.false_eq_true, if_false, List.nil_append]
  by_cases hP : nparts false s = []
  · rw [normpath_rel s h, if_pos hP]
    rw [show splitSep ['.'] = [['.']] from rfl]
    rw [show (([['.']] : List Str).length > 1 || !(([['.']] : List Str).headD [] == ['.'])) = false from by decide]
    simp [hP]
  · rw [normpath_rel s h, if_neg hP]
    have hok := (nparts_rel_inv s).2.2
    have hsplit : splitSep (interJoin (nparts false s)) = nparts false s :=
      splitSep_interJoin _ hP (fun z hz => (segOk_spec z (hok z hz)).2.2)
    rw [hsplit]
    have hhead : (nparts false s).headD [] ≠ ['.'] := by
      cases hQ : nparts false s with
      | nil => exact absurd hQ hP
      | cons x r =>
        simp only [List.headD_cons]
        exact (segOk_spec x (hok x (hQ ▸ List.mem_cons_self x r))).2.1
    rw [keep_cond_true _ hP hhead]
    simp

theorem fromString_abs_rel (s : Str) (h : isabs s = true)
    (h2 : isabs (s.drop 1) = false) :
    (fromString s).parts = [sep] ++ nparts false (s.drop 1) := by
  simp only [fromString, h, if_true]
  by_cases hP : nparts false (s.drop 1) = []
  · rw [normpath_rel _ h2, if_pos hP]
    rw [show splitSep ['.'] = [['.']] from rfl]
    rw [show (([['.']] : List Str).length > 1 || !(([['.']] : List Str).headD [] == ['.'])) = false from by decide]
    have hP' : nparts false s.tail = [] := List.drop_one s ▸ hP
    simp [hP']
  · rw [normpath_rel _ h2, if_neg hP]
    have hok := (nparts_rel_inv (s.drop 1)).2.2
    have hsplit : splitSep (interJoin (nparts false (s.drop 1))) = nparts false (s.drop 1) :=
      splitSep_interJoin _ hP (fun z hz => (segOk_spec z (hok z hz)).2.2)
    rw [hsplit]
    have hhead : (nparts false (s.drop 1)).headD [] ≠ ['.'] := by
      cases hQ : nparts false (s.drop 1) with
      | nil => exact absurd hQ hP
      | cons x r =>
        simp only [List.headD_cons]
        exact (segOk_spec x (hok x (hQ ▸ List.mem_cons_self x r))).2.1
    rw [keep_cond_true _ hP hhead]
    simp

theorem fromString_abs_abs (s : Str) (h : isabs s = true)
    (h2 : isabs (s.drop 1) = true) :
    (fromString s).parts =
      [sep, []] ++ (if nparts true (s.drop 1) = [] then [[]]
        else nparts true (s.drop 1)) := by
  simp only [fromString, h, if_true]
  rw [normpath_abs _ h2]
  by_cases hP : nparts true (s.drop 1) = []
  · rw [if_pos hP, hP]
    rw [show interJoin ([] : List Str) = [] from rfl]
    rw [show splitSep (sepC :: ([] : Str)) = [[], []] from rfl]
    rw [show (([[], []] : List Str).length > 1 || !(([[], []] : List Str).headD [] == ['.'])) = true from by decide]
    simp [sep]
  · rw [if_neg hP]
    have hok := nparts_abs_normal (s.drop 1)
    have hsplit : splitSep (interJoin (nparts true (s.drop 1))) = nparts true (s.drop 1) :=
      splitSep_interJoin _ hP (fun z hz => (normalSeg_spec z (hok z hz)).2.2.1)
    rw [splitSep_sep_cons, hsplit]
    have hc : (([] :: nparts true (s.drop 1)).length > 1 ||
        !(([] :: nparts true (s.drop 1)).headD [] == ['.'])) = true := by
      cases hQ : nparts true (s.drop 1) with
      | nil => exact absurd hQ hP
      | cons x r => simp
    rw [hc]
    simp [sep]

theorem fromString_cases (s : Str) :
    ((fromString s).parts = nparts false s ∧ isabs s = false) ∨
    ((fromString s).parts = [sep] ++ nparts false (s.drop 1) ∧
      isabs s = true ∧ isabs (s.drop 1) = false) ∨
    ((fromString s).parts =
        [sep, []] ++ (if nparts true (s.drop 1) = [] then [[]]
          else nparts true (s.drop 1)) ∧
      isabs s = true ∧ isabs (s.drop 1) = true) := by
  by_cases h : isabs s = true
  · by_cases h2 : isabs (s.drop 1) = true
    · exact Or.inr (Or.inr ⟨fromString_abs_abs s h h2, h, h2⟩)
    · have h2' : isabs (s.drop 1) = false := by simpa using h2
      exact Or.inr (Or.inl ⟨fromString_abs_rel s h h2', h, h2'⟩)
  · have h' : isabs s = false := by simpa using h
    exact Or.inl ⟨fromString_rel s h', h'⟩

/-! ### Rendering the stored segments -/

theorem is_absolute_of_segs (P : List Str) (hok : ∀ x ∈ P, segOk x = true) :
    is_absolute ⟨P⟩ = false := by
  cases P with
  | nil => rfl
  | cons x r =>
    have h3 : sepC ∉ x := (segOk_spec x (hok x (List.mem_cons_self x r))).2.2
    have : x ≠ sep := by
      intro e
      exact h3 (e ▸ List.mem_cons_self sepC [])
    simpa [is_absolute] using beq_eq_false_iff_ne.mpr this

theorem render_nil : render ⟨[]⟩ = ['.'] := by decide

theorem render_general (Q : List Str) (hne : Q ≠ []) :
    render ⟨Q⟩ =
      if is_absolute ⟨Q⟩ && decide (Q.length > 1) then (strJoin Q).drop 1
      else strJoin Q := by
  have hE : Q.isEmpty = false := by simp [List.isEmpty_iff, hne]
  simp only [render, hE, Bool.false_eq_true, if_false]

theorem render_rel (P : List Str) (hne : P ≠ []) (hok : ∀ x ∈ P, segOk x = true) :
    render ⟨P⟩ = interJoin P := by
  rw [render_general P hne, is_absolute_of_segs P hok]
  simp [strJoin_eq_interJoin]

theorem render_abs (S : List Str) (hok : ∀ x ∈ S, segOk x = true) :
    render ⟨[sep] ++ S⟩ = sepC :: interJoin S := by
  cases S with
  | nil => decide
  | cons y r =>
    have habs : is_absolute ⟨[sep] ++ y :: r⟩ = true := by simp [is_absolute]
    have hj : strJoin ([sep] ++ y :: r) = sepC :: sepC :: interJoin (y :: r) := by
      rw [strJoin_eq_interJoin, interJoin_append [sep] (y :: r) (by simp) (by simp)]
      rfl
    rw [render_general _ (by simp), habs, hj]
    simp

theorem render_dbl (S : List Str) (hne : S ≠ []) :
    render ⟨[sep, []] ++ S⟩ = sepC :: sepC :: interJoin S := by
  cases S with
  | nil => exact absurd rfl hne
  | cons y r =>
    have habs : is_absolute ⟨[sep, []] ++ y :: r⟩ = true := by simp [is_absolute]
    have hj : strJoin ([sep, []] ++ y :: r) = sepC :: sepC :: sepC :: interJoin (y :: r) := by
      rw [strJoin_eq_interJoin]
      rw [show ([sep, []] ++ y :: r) = sep :: [] :: y :: r from rfl]
      rw [interJoin_cons₂, interJoin_cons₂]
      rfl
    rw [render_general _ (by simp), habs, hj]
    simp

theorem render_dbl0 : render ⟨[sep, [], []]⟩ = [sepC, sepC] := by decide

/-! ### Parsing back a rendered path -/

theorem parse_dot : fromString ['.'] = ⟨[]⟩ := by decide

theorem parse_interJoin (P : List Str) (hok : ∀ x ∈ P, segOk x = true)
    (hNF : relNF 0 P = true) : fromString (interJoin P) = ⟨P⟩ := by
  have h := fromString_rel (interJoin P) (isabs_interJoin P hok)
  rw [nparts_rel_fix P hok hNF] at h
  rw [show fromString (interJoin P) = ⟨(fromString (interJoin P)).parts⟩ from rfl, h]

theorem parse_abs_interJoin (S : List Str) (hok : ∀ x ∈ S, segOk x = true)
    (hNF : relNF 0 S = true) : fromString (sepC :: interJoin S) = ⟨[sep] ++ S⟩ := by
  have habs : isabs (sepC :: interJoin S) = true := startswith_sep_cons _
  have hdrop : (sepC :: interJoin S).drop 1 = interJoin S := rfl
  have h := fromString_abs_rel (sepC :: interJoin S) habs
    (by rw [hdrop]; exact isabs_interJoin S hok)
  rw [hdrop, nparts_rel_fix S hok hNF] at h
  rw [show fromString (sepC :: interJoin S) = ⟨(fromString (sepC :: interJoin S)).parts⟩ from rfl, h]

theorem parse_dbl0 : fromString [sepC, sepC] = ⟨[sep, [], []]⟩ := by decide

theorem parse_dbl (S : List Str) (hne : S ≠ [])
    (hok : ∀ x ∈ S, normalSeg x = true) :
    fromString (sepC :: sepC :: interJoin S) = ⟨[sep, []] ++ S⟩ := by
  have habs : isabs (sepC :: sepC :: interJoin S) = true := startswith_sep_cons _
  have hdrop : (sepC :: sepC :: interJoin S).drop 1 = sepC :: interJoin S := rfl
  have h := fromString_abs_abs (sepC :: sepC :: interJoin S) habs
    (by rw [hdrop]; exact startswith_sep_cons _)
  rw [hdrop, nparts_abs_fix S hok, if_neg hne] at h
  rw [show fromString (sepC :: sepC :: interJoin S) = ⟨(fromString (sepC :: sepC :: interJoin S)).parts⟩ from rfl, h]

theorem render_roundtrip (s : Str) :
    fromString (render (fromString s)) = fromString s := by
  rcases fromString_cases s with ⟨e, _⟩ | ⟨e, _, _⟩ | ⟨e, _, _⟩
  · have hfs : fromString s = ⟨nparts false s⟩ := by rw [← e]
    have hok := (nparts_rel_inv s).2.2
    have hNF := (nparts_rel_inv s).2.1
    by_cases hQ : nparts false s = []
    · rw [hfs, hQ]
      decide
    · rw [hfs, render_rel _ hQ hok]
      exact parse_interJoin _ hok hNF
  · have hfs : fromString s = ⟨[sep] ++ nparts false (s.drop 1)⟩ := by rw [← e]
    have hok := (nparts_rel_inv (s.drop 1)).2.2
    have hNF := (nparts_rel_inv (s.drop 1)).2.1
    rw [hfs, render_abs _ hok]
    exact parse_abs_interJoin _ hok hNF
  · have hfs : fromString s =
        ⟨[sep, []] ++ (if nparts true (s.drop 1) = [] then [[]]
          else nparts true (s.drop 1))⟩ := by rw [← e]
    by_cases hS : nparts true (s.drop 1) = []
    · rw [hfs, if_pos hS]
      decide
    · rw [hfs, if_neg hS, render_dbl _ hS]
      exact parse_dbl _ hS (nparts_abs_normal (s.drop 1))

/-! ### Joining recovers concatenated segment lists -/

theorem relNF_append (P R : List Str) : ∀ l : Int,
    relNF l (P ++ R) = (relNF l P && relNF (l + lvl P) R) := by
  induction P with
  | nil =>
    intro l
    simp [relNF, lvl]
  | cons x P' ih =>
    intro l
    by_cases hx : x = dd
    · subst hx
      rw [List.cons_append, relNF_cons_dd, relNF_cons_dd, ih (l - 1),
        lvl_cons, segVal_dd, Bool.and_assoc]
      rw [show l + (-1 + lvl P') = l - 1 + lvl P' from by ring]
    · rw [List.cons_append, relNF_cons_ne _ _ _ hx, relNF_cons_ne _ _ _ hx,
        ih (l + 1), lvl_cons, segVal_ne_dd x hx]
      rw [show l + (1 + lvl P') = l + 1 + lvl P' from by ring]

theorem endswith_acc_interJoin (Q : List Str) : ∀ acc : Str,
    (∀ x ∈ Q, segOk x = true) → Q ≠ [] →
    endswith (acc ++ interJoin Q) sep = false := by
  induction Q with
  | nil => intro acc _ hne; exact absurd rfl hne
  | cons x r ih =>
    intro acc hok _
    cases r with
    | nil =>
      have hx := segOk_spec x (hok x (List.mem_cons_self x []))
      exact endswith_append_no_sep acc x hx.1 hx.2.2
    | cons y r' =>
      rw [interJoin_cons₂]
      rw [show acc ++ (x ++ sepC :: interJoin (y :: r')) =
        (acc ++ x ++ [sepC]) ++ interJoin (y :: r') from by simp]
      exact ih _ (fun z hz => hok z (List.mem_cons_of_mem x hz)) (by simp)

theorem endswith_interJoin (Q : List Str) (hne : Q ≠ [])
    (hok : ∀ x ∈ Q, segOk x = true) : endswith (interJoin Q) sep = false := by
  have := endswith_acc_interJoin Q [] hok hne
  simpa using this

theorem isabs_interJoin_append (Q : List Str) (t : Str) (hne : Q ≠ [])
    (hok : ∀ x ∈ Q, segOk x = true) : isabs (interJoin Q ++ t) = false := by
  cases Q with
  | nil => exact absurd rfl hne
  | cons x r =>
    have hx := segOk_spec x (hok x (List.mem_cons_self x r))
    cases r with
    | nil => exact startswith_append_no_sep x t hx.1 hx.2.2
    | cons y r' =>
      rw [interJoin_cons₂, List.append_assoc]
      exact startswith_append_no_sep x _ hx.1 hx.2.2

theorem splitSep_dot_sep (t : Str) : splitSep (['.'] ++ sepC :: t) = ['.'] :: splitSep t :=
  splitSep_append_sep ['.'] t (by decide)

theorem nparts_skip_dot (Q : List Str) (hok : ∀ x ∈ Q, segOk x = true)
    (hNF : relNF 0 Q = true) :
    (normLoop false 0 [] (Q ++ [['.']])).2 = Q := by
  have hsk : ∀ z ∈ Q, ¬ (z = [] ∨ z = ['.']) := by
    intro z hz
    obtain ⟨h1, h2, _⟩ := segOk_spec z (hok z hz)
    rintro (e | e)
    · exact h1 e
    · exact h2 e
  rw [normLoop_rel_append Q [['.']] 0 [] hNF hsk,
    normLoop_skip false _ _ [] ['.'] (Or.inr rfl), normLoop_nil]
  simp

theorem joinpath_rel_recover (Q R : List Str)
    (hok : ∀ x ∈ Q ++ R, segOk x = true) (hNF : relNF 0 (Q ++ R) = true) :
    joinpath ⟨Q⟩ ⟨R⟩ = ⟨Q ++ R⟩ := by
  have hokQ : ∀ x ∈ Q, segOk x = true := fun x hx => hok x (List.mem_append_left R hx)
  have hokR : ∀ x ∈ R, segOk x = true := fun x hx => hok x (List.mem_append_right Q hx)
  have hNFQ : relNF 0 Q = true := by
    have h := hNF
    rw [relNF_append Q R 0] at h
    simp only [Bool.and_eq_true] at h
    exact h.1
  by_cases hQ : Q = []
  · subst hQ
    by_cases hR : R = []
    · subst hR
      decide
    · show fromString (pathJoin [render ⟨([] : List Str)⟩, render ⟨R⟩]) = _
      rw [render_nil, render_rel R hR hokR]
      rw [pathJoin_pair_rel _ _ (isabs_interJoin R hokR)]
      rw [if_neg (by rw [show endswith ['.'] sep = false from by decide]; simp)]
      show fromString (['.'] ++ sepC :: interJoin R) = _
      have habs : isabs (['.'] ++ sepC :: interJoin R) = false := by
        exact startswith_append_no_sep ['.'] _ (by decide) (by decide)
      have hsplit : splitSep (['.'] ++ sepC :: interJoin R) = ['.'] :: R := by
        rw [splitSep_dot_sep, splitSep_interJoin R hR
          (fun z hz => (segOk_spec z (hokR z hz)).2.2)]
      have hparts : nparts false (['.'] ++ sepC :: interJoin R) = R := by
        show (normLoop false 0 [] (splitSep (['.'] ++ sepC :: interJoin R))).2 = R
        rw [hsplit, normLoop_skip false 0 [] R ['.'] (Or.inr rfl)]
        have hsk : ∀ z ∈ R, ¬ (z = [] ∨ z = ['.']) := by
          intro z hz
          obtain ⟨h1, h2, _⟩ := segOk_spec z (hokR z hz)
          rintro (e | e)
          · exact h1 e
          · exact h2 e
        rw [show R = R ++ [] from by simp, normLoop_rel_append R [] 0 [] (by simpa using hNF) hsk,
          normLoop_nil]
        simp
      have := fromString_rel _ habs
      rw [hparts] at this
      rw [show fromString (['.'] ++ sepC :: interJoin R) =
        ⟨(fromString (['.'] ++ sepC :: interJoin R)).parts⟩ from rfl, this]
      simp
  · by_cases hR : R = []
    · subst hR
      show fromString (pathJoin [render ⟨Q⟩, render ⟨([] : List Str)⟩]) = _
      rw [render_nil, render_rel Q hQ hokQ]
      rw [pathJoin_pair_rel _ _ (by decide)]
      rw [if_neg (by rw [endswith_interJoin Q hQ hokQ]; simp)]
      rw [show (interJoin Q ++ sep) ++ ['.'] = interJoin Q ++ sepC :: ['.'] from by
        simp [sep]]
      have habs : isabs (interJoin Q ++ sepC :: ['.']) = false :=
        isabs_interJoin_append Q _ hQ hokQ
      have hsplit : splitSep (interJoin Q ++ sepC :: ['.']) = Q ++ [['.']] := by
        rw [splitSep_interJoin_sep Q ['.'] hQ
          (fun z hz => (segOk_spec z (hokQ z hz)).2.2)]
        rfl
      have hparts : nparts false (interJoin Q ++ sepC :: ['.']) = Q := by
        show (normLoop false 0 [] (splitSep (interJoin Q ++ sepC :: ['.']))).2 = Q
        rw [hsplit]
        exact nparts_skip_dot Q hokQ hNFQ
      have := fromString_rel _ habs
      rw [hparts] at this
      rw [show fromString (interJoin Q ++ sepC :: ['.']) =
        ⟨(fromString (interJoin Q ++ sepC :: ['.'])).parts⟩ from rfl, this]
      simp
    · show fromString (pathJoin [render ⟨Q⟩, render ⟨R⟩]) = _
      rw [render_rel Q hQ hokQ, render_rel R hR hokR]
      rw [pathJoin_pair_rel _ _ (isabs_interJoin R hokR)]
      rw [if_neg (by rw [endswith_interJoin Q hQ hokQ]; simp)]
      rw [show (interJoin Q ++ sep) ++ interJoin R = interJoin Q ++ sepC :: interJoin R
        from by simp [sep]]
      rw [← interJoin_append Q R hQ hR]
      exact parse_interJoin (Q ++ R) hok hNF

theorem joinpath_abs_recover (T R : List Str)
    (hok : ∀ x ∈ T ++ R, segOk x = true) (hNF : relNF 0 (T ++ R) = true) :
    joinpath ⟨[sep] ++ T⟩ ⟨R⟩ = ⟨[sep] ++ (T ++ R)⟩ := by
  have hokT : ∀ x ∈ T, segOk x = true := fun x hx => hok x (List.mem_append_left R hx)
  have hokR : ∀ x ∈ R, segOk x = true := fun x hx => hok x (List.mem_append_right T hx)
  have hrenderT : render ⟨[sep] ++ T⟩ = sepC :: interJoin T := render_abs T hokT
  by_cases hR : R = []
  · subst hR
    show fromString (pathJoin [render ⟨[sep] ++ T⟩, render ⟨([] : List Str)⟩]) = _
    rw [render_nil, hrenderT, pathJoin_pair_rel _ _ (by decide)]
    by_cases hT : T = []
    · subst hT
      rw [if_pos (by decide)]
      decide
    · rw [if_neg (by
        rw [show (sepC :: interJoin T) = [sepC] ++ interJoin T from rfl,
          endswith_acc_interJoin T [sepC] hokT hT]
        simp)]
      rw [show ((sepC :: interJoin T) ++ sep) ++ ['.'] =
        sepC :: (interJoin T ++ sepC :: ['.']) from by simp [sep]]
      have habs : isabs (sepC :: (interJoin T ++ sepC :: ['.'])) = true :=
        startswith_sep_cons _
      have hdrop : (sepC :: (interJoin T ++ sepC :: ['.'])).drop 1 =
        interJoin T ++ sepC :: ['.'] := rfl
      have h2 : isabs ((sepC :: (interJoin T ++ sepC :: ['.'])).drop 1) = false := by
        rw [hdrop]
        exact isabs_interJoin_append T _ hT hokT
      have h := fromString_abs_rel _ habs h2
      have hparts : nparts false (interJoin T ++ sepC :: ['.']) = T := by
        show (normLoop false 0 [] (splitSep (interJoin T ++ sepC :: ['.']))).2 = T
        rw [splitSep_interJoin_sep T ['.'] hT
          (fun z hz => (segOk_spec z (hokT z hz)).2.2)]
        exact nparts_skip_dot T hokT (by simpa using hNF)
      rw [hdrop, hparts] at h
      rw [show fromString (sepC :: (interJoin T ++ sepC :: ['.'])) =
        ⟨(fromString (sepC :: (interJoin T ++ sepC :: ['.']))).parts⟩ from rfl, h]
      simp
  · show fromString (pathJoin [render ⟨[sep] ++ T⟩, render ⟨R⟩]) = _
    rw [render_rel R hR hokR, hrenderT, pathJoin_pair_rel _ _ (isabs_interJoin R hokR)]
    by_cases hT : T = []
    · subst hT
      rw [if_pos (by decide)]
      rw [show (sepC :: interJoin ([] : List Str)) ++ interJoin R = sepC :: interJoin R
        from rfl]
      have := parse_abs_interJoin R hokR (by simpa using hNF)
      simpa using this
    · rw [if_neg (by
        rw [show (sepC :: interJoin T) = [sepC] ++ interJoin T from rfl,
          endswith_acc_interJoin T [sepC] hokT hT]
        simp)]
      rw [show ((sepC :: interJoin T) ++ sep) ++ interJoin R =
        sepC :: (interJoin T ++ sepC :: interJoin R) from by simp [sep]]
      rw [← interJoin_append T R hT hR]
      exact parse_abs_interJoin (T ++ R) hok hNF

/-! ### `relative_to` -/

theorem relative_to_of_pre (p other : PurePosixPath) (h : other.parts <+: p.parts) :
    relative_to p other = .ok ⟨p.parts.drop other.parts.length⟩ := by
  have hlen : other.parts.length ≤ p.parts.length := h.length_le
  have hpre : List.isPrefixOf other.parts p.parts = true := by
    rw [List.isPrefixOf_iff_prefix]
    exact h
  simp only [relative_to]
  rw [if_neg (by omega), if_neg (by simp [hpre])]

theorem relative_to_of_not_pre (p other : PurePosixPath)
    (h : ¬ other.parts <+: p.parts) :
    relative_to p other = .error .invalidArgument := by
  by_cases hlen : p.parts.length < other.parts.length
  · simp only [relative_to]
    rw [if_pos hlen]
  · have hpre : List.isPrefixOf other.parts p.parts = false :=
      Bool.eq_false_iff.mpr (fun e => h (List.isPrefixOf_iff_prefix.mp e))
    have hne : other.parts ≠ [] := by
      intro e
      exact h (e ▸ List.nil_prefix)
    simp only [relative_to]
    rw [if_neg hlen, if_pos (by simp [hpre, List.isEmpty_iff, hne])]

/-! ### `splitext` -/

theorem rfindDot_concat_dot (u : Str) : rfindDot (u ++ ['.']) = some u.length := by
  induction u with
  | nil => rfl
  | cons c u' ih => simp [List.cons_append, rfindDot, ih]

theorem rfindDot_some (s : Str) : ∀ i, rfindDot s = some i →
    ∃ u v, s = u ++ '.' :: v ∧ u.length = i := by
  induction s with
  | nil => intro i h; cases h
  | cons c cs ih =>
    intro i h
    simp only [rfindDot] at h
    cases hcs : rfindDot cs with
    | some j =>
      rw [hcs] at h
      obtain ⟨u, v, he, hl⟩ := ih j hcs
      injection h with h
      exact ⟨c :: u, v, by rw [List.cons_append, ← he], by simp [hl, ← h]⟩
    | none =>
      rw [hcs] at h
      by_cases hc : c = '.'
      · rw [if_pos hc] at h
        injection h with h
        exact ⟨[], cs, by rw [hc]; rfl, by simp [← h]⟩
      · rw [if_neg hc] at h
        cases h

theorem splitext_no_dot (s : Str) (h : rfindDot s = none) : splitext s = (s, []) := by
  simp [splitext, h]

theorem splitext_zero (s : Str) (h : rfindDot s = some 0) : splitext s = (s, []) := by
  simp [splitext, h]

theorem splitext_pos (u v : Str) (hne : u ≠ [])
    (hfind : rfindDot (u ++ '.' :: v) = some u.length) :
    splitext (u ++ '.' :: v) = (u, '.' :: v) := by
  obtain ⟨n, hn⟩ := Nat.exists_eq_succ_of_ne_zero
    (fun e => hne (List.length_eq_zero.mp e))
  simp only [splitext, hfind, hn]
  rw [← hn, List.take_left, List.drop_left]

theorem endswith_concat_char (u : Str) (c d : Char) :
    endswith (u ++ [c]) [d] = (c == d) := by
  unfold endswith
  have h1 : ¬ ([d].length > (u ++ [c]).length) := by simp
  rw [if_neg h1]
  have h2 : (u ++ [c]).length - [d].length = u.length := by simp
  rw [h2, List.drop_left]
  rw [show ([c] == [d]) = ((c == d) && true) from rfl, Bool.and_true]

/-! ### Roots, names and parents -/

theorem getLastD_eq_getLast (P : List Str) (hne : P ≠ []) :
    P.getLastD [] = P.getLast hne := by
  rw [List.getLastD_eq_getLast?, List.getLast?_eq_getLast _ hne]
  rfl

theorem getLastD_mem (P : List Str) (hne : P ≠ []) : P.getLastD [] ∈ P := by
  rw [getLastD_eq_getLast P hne]
  exact List.getLast_mem hne

theorem is_root_rel_false (P : List Str) (hne : P ≠ [])
    (habs : is_absolute ⟨P⟩ = false) : is_root ⟨P⟩ = false := by
  simp [is_root, habs, List.isEmpty_iff, hne]

theorem is_root_abs_false (S : List Str) (hne : S ≠ []) :
    is_root ⟨[sep] ++ S⟩ = false := by
  cases S with
  | nil => exact absurd rfl hne
  | cons y r => simp [is_root]

theorem name_rel (P : List Str) (hne : P ≠ [])
    (habs : is_absolute ⟨P⟩ = false) : name ⟨P⟩ = P.getLastD [] := by
  simp [name, is_root_rel_false P hne habs]

theorem name_abs (S : List Str) (hne : S ≠ []) :
    name ⟨[sep] ++ S⟩ = S.getLastD [] := by
  simp only [name, is_root_abs_false S hne, Bool.false_eq_true, if_false]
  show ([sep] ++ S).getLastD [] = S.getLastD []
  rw [List.getLastD_eq_getLast?, List.getLastD_eq_getLast?,
    List.getLast?_append_of_ne_nil [sep] hne]

theorem parent_rel (P : List Str) (hne : P ≠ [])
    (habs : is_absolute ⟨P⟩ = false) : parent ⟨P⟩ = ⟨P.dropLast⟩ := by
  simp [parent, is_root_rel_false P hne habs]

theorem parent_abs (S : List Str) (hne : S ≠ []) :
    parent ⟨[sep] ++ S⟩ = ⟨[sep] ++ S.dropLast⟩ := by
  simp only [parent, is_root_abs_false S hne, Bool.false_eq_true, if_false]
  rw [List.dropLast_append_of_ne_nil _ hne]

theorem joinpathStr_single (p : PurePosixPath) (z : Str) (hok : segOk z = true) :
    joinpathStr p z = joinpath p ⟨[z]⟩ := by
  unfold joinpathStr joinpath
  rw [render_rel [z] (by simp)
    (by intro x hx; rw [List.mem_singleton.mp hx]; exact hok)]
  rfl

/-! ### Stem and suffix recomposition -/

theorem stem_suffix_recompose (p : PurePosixPath)
    (hpne : p.parts ≠ [])
    (hlastD : p.parts.getLastD [] = name p)
    (hne : name p ≠ []) (hdot : name p ≠ ['.']) (hsep : sepC ∉ name p)
    (hroot : (splitext (name p)).1 ≠ ['.']) :
    stem p ++ suffix p = name p ∧
    ((suffix p).isEmpty || validSuffix (suffix p)) = true := by
  have hEmpty : p.parts.isEmpty = false := by simp [List.isEmpty_iff, hpne]
  have hsplitN := (List.dropLast_append_getLast hne).symm
  by_cases hlast : (name p).getLast hne = '.'
  · -- the raw name ends in a dot: suffix is blanked, stem restores the dot
    have hu : name p = (name p).dropLast ++ ['.'] := by
      conv_lhs => rw [hsplitN]
      rw [hlast]
    have hune : (name p).dropLast ≠ [] := by
      intro e
      rw [e] at hu
      exact hdot (by simpa using hu)
    have hfind : rfindDot (name p) = some (name p).dropLast.length := by
      conv_lhs => rw [hu]
      exact rfindDot_concat_dot _
    have hsplit : splitext (name p) = ((name p).dropLast, ['.']) := by
      conv_lhs => rw [hu]
      exact splitext_pos _ [] hune (by rw [← hu]; exact hfind)
    have hrootu : (name p).dropLast ≠ ['.'] := by
      intro e
      rw [hsplit] at hroot
      exact hroot e
    have hendT : endswith (p.parts.getLastD []) ['.'] = true := by
      rw [hlastD]
      conv_lhs => rw [hu]
      rw [endswith_concat_char]
      simp
    have hsfx : suffix p = [] := by
      simp [suffix, hsplit]
    have hstem : stem p = (name p).dropLast ++ ['.'] := by
      simp only [stem, hsplit]
      rw [if_neg hrootu, if_pos (by rw [hEmpty, hendT]; rfl)]
    constructor
    · rw [hstem, hsfx, hu]
      simp
    · rw [hsfx]
      rfl
  · -- the raw name does not end in a dot
    have hend : endswith (name p) ['.'] = false := by
      conv_lhs => rw [hsplitN]
      rw [endswith_concat_char]
      exact beq_eq_false_iff_ne.mpr hlast
    have hendF : (!p.parts.isEmpty && endswith (p.parts.getLastD []) ['.']) = false := by
      rw [hlastD, hend, Bool.and_false]
    cases hfind : rfindDot (name p) with
    | none =>
      have hsplit := splitext_no_dot _ hfind
      have hsfx : suffix p = [] := by simp [suffix, hsplit]
      have hstem : stem p = name p := by
        simp only [stem, hsplit]
        rw [if_neg hdot, if_neg (by rw [hendF]; simp)]
      constructor
      · rw [hstem, hsfx]
        simp
      · rw [hsfx]
        rfl
    | some i =>
      cases i with
      | zero =>
        have hsplit := splitext_zero _ hfind
        have hsfx : suffix p = [] := by simp [suffix, hsplit]
        have hstem : stem p = name p := by
          simp only [stem, hsplit]
          rw [if_neg hdot, if_neg (by rw [hendF]; simp)]
        constructor
        · rw [hstem, hsfx]
          simp
        · rw [hsfx]
          rfl
      | succ i' =>
        obtain ⟨u, v, hn, hl⟩ := rfindDot_some _ _ hfind
        have hune : u ≠ [] := by
          intro e
          rw [e] at hl
          cases hl
        have hfind' : rfindDot (u ++ '.' :: v) = some u.length := by
          rw [← hn, hfind, hl]
        have hsplit : splitext (name p) = (u, '.' :: v) := by
          rw [hn]
          exact splitext_pos u v hune hfind'
        have hvne : v ≠ [] := by
          intro e
          rw [e] at hn
          rw [hn] at hend
          rw [show (u ++ ['.'] : Str) = u ++ ['.'] from rfl, endswith_concat_char] at hend
          simp at hend
        have hsfx : suffix p = '.' :: v := by
          simp only [suffix, hsplit]
          rw [if_neg (by
            intro e
            exact hvne (by injection e))]
        have hsepv : ∀ x ∈ v, x ≠ sepC := by
          intro x hx e
          apply hsep
          rw [hn]
          exact List.mem_append_right u (List.mem_cons_of_mem '.' (e ▸ hx))
        have hvalid : validSuffix ('.' :: v) = true := by
          simp only [validSuffix]
          rw [show ('.' == '.') = true from by decide]
          rw [show v.isEmpty = false from by simp [List.isEmpty_iff, hvne]]
          simp only [Bool.not_false, Bool.true_and]
          rw [List.all_eq_true]
          intro x hx
          exact bne_iff_ne.mpr (hsepv x hx)
        have hrootu : u ≠ ['.'] := by
          intro e
          rw [hsplit] at hroot
          exact hroot e
        have hstem : stem p = u := by
          simp only [stem, hsplit]
          rw [if_neg hrootu, if_neg (by rw [hendF]; simp)]
        constructor
        · rw [hstem, hsfx, hn]
        · rw [hsfx]
          simp [hvalid]

theorem with_suffix_ok (p : PurePosixPath) (sfx : Str)
    (hv : (sfx.isEmpty || validSuffix sfx) = true) (hn : name p ≠ []) :
    with_suffix p sfx = .ok (joinpathStr (parent p) (stem p ++ sfx)) := by
  simp only [with_suffix, hv, Bool.not_true, Bool.false_eq_true, if_false]
  rw [if_neg (by simp [List.isEmpty_iff, hn])]

theorem with_suffix_self_rel (P : List Str)
    (hok : ∀ x ∈ P, segOk x = true) (hNF : relNF 0 P = true)
    (hname : name ⟨P⟩ ≠ []) (hroot : (splitext (name ⟨P⟩)).1 ≠ ['.']) :
    with_suffix ⟨P⟩ (suffix ⟨P⟩) = .ok ⟨P⟩ := by
  have hpne : P ≠ [] := by
    intro e
    subst e
    exact hname rfl
  have habs : is_absolute ⟨P⟩ = false := is_absolute_of_segs P hok
  have hlastD : P.getLastD [] = name ⟨P⟩ := (name_rel P hpne habs).symm
  have hz : segOk (name ⟨P⟩) = true := by
    rw [← hlastD]
    exact hok _ (getLastD_mem P hpne)
  obtain ⟨_, hz2, hz3⟩ := segOk_spec _ hz
  obtain ⟨hrec, hval⟩ := stem_suffix_recompose ⟨P⟩ hpne hlastD hname hz2 hz3 hroot
  rw [with_suffix_ok _ _ hval hname, hrec, parent_rel P hpne habs,
    joinpathStr_single _ _ hz]
  have hsplit := List.dropLast_append_getLast hpne
  have hlast_eq : name ⟨P⟩ = P.getLast hpne := by
    rw [← hlastD, getLastD_eq_getLast P hpne]
  rw [hlast_eq, joinpath_rel_recover P.dropLast [P.getLast hpne]
    (by rw [hsplit]; exact hok) (by rw [hsplit]; exact hNF)]
  rw [hsplit]

theorem with_suffix_self_abs (S : List Str)
    (hok : ∀ x ∈ S, segOk x = true) (hNF : relNF 0 S = true)
    (hname : name ⟨[sep] ++ S⟩ ≠ [])
    (hroot : (splitext (name ⟨[sep] ++ S⟩)).1 ≠ ['.']) :
    with_suffix ⟨[sep] ++ S⟩ (suffix ⟨[sep] ++ S⟩) = .ok ⟨[sep] ++ S⟩ := by
  have hSne : S ≠ [] := by
    intro e
    subst e
    exact hname (by rfl)
  have hpne : ([sep] ++ S : List Str) ≠ [] := by simp
  have hlastD : ([sep] ++ S).getLastD [] = name ⟨[sep] ++ S⟩ := by
    rw [name_abs S hSne, List.getLastD_eq_getLast?, List.getLastD_eq_getLast?,
      List.getLast?_append_of_ne_nil [sep] hSne]
  have hz : segOk (name ⟨[sep] ++ S⟩) = true := by
    rw [name_abs S hSne]
    exact hok _ (getLastD_mem S hSne)
  obtain ⟨_, hz2, hz3⟩ := segOk_spec _ hz
  obtain ⟨hrec, hval⟩ := stem_suffix_recompose ⟨[sep] ++ S⟩ hpne hlastD hname hz2 hz3 hroot
  rw [with_suffix_ok _ _ hval hname, hrec, parent_abs S hSne,
    joinpathStr_single _ _ hz]
  have hsplit := List.dropLast_append_getLast hSne
  have hlast_eq : name ⟨[sep] ++ S⟩ = S.getLast hSne := by
    rw [name_abs S hSne, getLastD_eq_getLast S hSne]
  rw [hlast_eq, joinpath_abs_recover S.dropLast [S.getLast hSne]
    (by rw [hsplit]; exact hok) (by rw [hsplit]; exact hNF)]
  rw [hsplit]

/-! ### `relative_to` inverts `joinpath` on prefixes -/

theorem relative_to_inverse (s t : Str)
    (hpre : (fromString t).parts <+: (fromString s).parts)
    (hnoempty : ∀ x ∈ (fromString s).parts, x ≠ []) :
    joinpath (fromString t)
      ⟨(fromString s).parts.drop (fromString t).parts.length⟩ = fromString s := by
  rcases fromString_cases s with ⟨ep, _⟩ | ⟨ep, _, _⟩ | ⟨ep, _, _⟩
  · -- the base path is relative
    have hfp : fromString s = ⟨nparts false s⟩ := by rw [← ep]
    have hokP := (nparts_rel_inv s).2.2
    have hNFP := (nparts_rel_inv s).2.1
    have hsepP : sep ∉ nparts false s := by
      intro hm
      exact absurd (hokP sep hm) (by decide)
    rcases fromString_cases t with ⟨eq, _⟩ | ⟨eq, _, _⟩ | ⟨eq, _, _⟩
    · have hfq : fromString t = ⟨nparts false t⟩ := by rw [← eq]
      obtain ⟨R, hR⟩ := hpre
      rw [ep, eq] at hR
      rw [hfp, hfq]
      show joinpath ⟨nparts false t⟩
        ⟨(nparts false s).drop (nparts false t).length⟩ = ⟨nparts false s⟩
      rw [← hR, List.drop_left]
      exact joinpath_rel_recover _ _ (by rw [hR]; exact hokP) (by rw [hR]; exact hNFP)
    · exfalso
      apply hsepP
      have hmem : sep ∈ (fromString t).parts := by rw [eq]; simp
      have := hpre.sublist.mem hmem
      rw [ep] at this
      exact this
    · exfalso
      apply hsepP
      have hmem : sep ∈ (fromString t).parts := by rw [eq]; simp
      have := hpre.sublist.mem hmem
      rw [ep] at this
      exact this
  · -- the base path is absolute with a well-formed tail
    have hfp : fromString s = ⟨[sep] ++ nparts false (s.drop 1)⟩ := by rw [← ep]
    have hokS := (nparts_rel_inv (s.drop 1)).2.2
    have hNFS := (nparts_rel_inv (s.drop 1)).2.1
    rcases fromString_cases t with ⟨eq, _⟩ | ⟨eq, _, _⟩ | ⟨eq, _, _⟩
    · have hfq : fromString t = ⟨nparts false t⟩ := by rw [← eq]
      cases hQ : nparts false t with
      | nil =>
        rw [hfp, hfq, hQ]
        show fromString (pathJoin [render ⟨([] : List Str)⟩,
          render ⟨[sep] ++ nparts false (s.drop 1)⟩]) = _
        rw [render_abs _ hokS, pathJoin_pair_abs _ _ (startswith_sep_cons _)]
        exact parse_abs_interJoin _ hokS hNFS
      | cons x q' =>
        exfalso
        rw [ep, eq, hQ] at hpre
        obtain ⟨hx, _⟩ := List.cons_prefix_cons.mp hpre
        have hokQ := (nparts_rel_inv t).2.2
        have := hokQ x (hQ ▸ List.mem_cons_self x q')
        rw [hx] at this
        exact absurd this (by decide)
    · have hfq : fromString t = ⟨[sep] ++ nparts false (t.drop 1)⟩ := by rw [← eq]
      have hpre' : nparts false (t.drop 1) <+: nparts false (s.drop 1) := by
        rw [ep, eq] at hpre
        exact (List.cons_prefix_cons.mp hpre).2
      obtain ⟨R, hR⟩ := hpre'
      rw [hfp, hfq]
      show joinpath ⟨[sep] ++ nparts false (t.drop 1)⟩
        ⟨([sep] ++ nparts false (s.drop 1)).drop
          ([sep] ++ nparts false (t.drop 1)).length⟩ =
        ⟨[sep] ++ nparts false (s.drop 1)⟩
      rw [show ([sep] ++ nparts false (t.drop 1) : List Str).length =
        (nparts false (t.drop 1)).length + 1 from by simp [Nat.add_comm]]
      rw [show (([sep] ++ nparts false (s.drop 1) : List Str)).drop
        ((nparts false (t.drop 1)).length + 1) =
        (nparts false (s.drop 1)).drop (nparts false (t.drop 1)).length from
        List.drop_succ_cons ..]
      rw [← hR, List.drop_left]
      exact joinpath_abs_recover _ _ (by rw [hR]; exact hokS) (by rw [hR]; exact hNFS)
    · exfalso
      have hmem : ([] : Str) ∈ (fromString t).parts := by rw [eq]; simp
      exact hnoempty [] (hpre.sublist.mem hmem) rfl
  · exfalso
    have hmem : ([] : Str) ∈ (fromString s).parts := by rw [ep]; simp
    exact hnoempty [] hmem rfl

/-! ### Remaining characterizations used by the claims -/

theorem normpath_abs_raw (s : Str) (h : isabs s = true) :
    normpath s = sep ++ pathJoin (nparts true s) := by
  show (let parts := (normLoop (isabs s) 0 [] (splitSep s)).2
        let normed := pathJoin parts
        if isabs s then sep ++ normed
        else if normed.isEmpty then ['.'] else normed) = _
  rw [h]
  rfl

theorem render_starts_sep (t : Str) (h : is_absolute (fromString t) = true) :
    startswith (render (fromString t)) sep = true := by
  rcases fromString_cases t with ⟨e, _⟩ | ⟨e, _, _⟩ | ⟨e, _, _⟩
  · exfalso
    have hfs : fromString t = ⟨nparts false t⟩ := by rw [← e]
    rw [hfs, is_absolute_of_segs _ (nparts_rel_inv t).2.2] at h
    cases h
  · have hfs : fromString t = ⟨[sep] ++ nparts false (t.drop 1)⟩ := by rw [← e]
    rw [hfs, render_abs _ (nparts_rel_inv (t.drop 1)).2.2]
    exact startswith_sep_cons _
  · have hfs : fromString t =
      ⟨[sep, []] ++ (if nparts true (t.drop 1) = [] then [[]]
        else nparts true (t.drop 1))⟩ := by rw [← e]
    by_cases hS : nparts true (t.drop 1) = []
    · rw [hfs, if_pos hS,
        show ([sep, []] ++ [[]] : List Str) = [sep, [], []] from rfl, render_dbl0]
      exact startswith_sep_cons _
    · rw [hfs, if_neg hS, render_dbl _ hS]
      exact startswith_sep_cons _

theorem pathJoinGo_trailing (P : List Str) : ∀ acc : Str, P.getLast? = some [] →
    (2 ≤ P.length ∨ endswith acc sep = true) →
    endswith (pathJoinGo acc P) sep = true := by
  induction P with
  | nil => intro acc h _; cases h
  | cons x r ih =>
    intro acc hlast hcond
    cases r with
    | nil =>
      have hx : x = [] := by simpa using hlast
      subst hx
      have hacc : endswith acc sep = true := by
        rcases hcond with h2 | h2
        · simp at h2
        · exact h2
      have hstep : pathJoinGo acc [[]] = acc ++ [] := by
        simp [pathJoinGo, startswith, sep, List.isPrefixOf]
      rw [hstep]
      simpa using hacc
    | cons y r' =>
      have hlast' : (y :: r').getLast? = some [] := by
        rw [List.getLast?_cons_cons] at hlast
        exact hlast
      simp only [pathJoinGo]
      apply ih _ hlast'
      right
      cases hE : endswith (if startswith x sep = true then x else acc ++ x) sep
      · simp only [hE, Bool.not_false, List.isEmpty_cons, Bool.not_false, Bool.and_self,
          if_true]
        exact endswith_sep_append _
      · simp only [hE, Bool.not_true, Bool.false_and, Bool.false_eq_true, if_false]

theorem validName_iff (nm : Str) : validName nm = true ↔
    ∃ c t, nm = c :: t ∧ c ≠ '.' ∧ ∀ x ∈ t, x ≠ sepC := by
  cases nm with
  | nil => simp [validName]
  | cons c t =>
    constructor
    · intro h
      have h' : (c != '.') = true ∧ t.all (fun x => x != sepC) = true := by
        simpa [validName] using h
      refine ⟨c, t, rfl, bne_iff_ne.mp h'.1, ?_⟩
      intro x hx
      exact bne_iff_ne.mp (List.all_eq_true.mp h'.2 x hx)
    · rintro ⟨c', t', he, h1, h2⟩
      obtain ⟨e1, e2⟩ : c = c' ∧ t = t' := by
        injection he with e1 e2
        exact ⟨e1, e2⟩
      subst e1
      subst e2
      have : (c != '.') = true ∧ t.all (fun x => x != sepC) = true := by
        refine ⟨bne_iff_ne.mpr h1, List.all_eq_true.mpr ?_⟩
        intro x hx
        exact bne_iff_ne.mpr (h2 x hx)
      simpa [validName] using this

theorem with_name_ok (p : PurePosixPath) (nm : Str)
    (h1 : validName nm = true) (h2 : name p ≠ []) :
    with_name p nm = .ok (joinpathStr (parent p) nm) := by
  simp only [with_name, h1, Bool.not_true, Bool.false_eq_true, if_false]
  rw [if_neg (by simp [List.isEmpty_iff, h2])]

theorem with_name_error_iff (p : PurePosixPath) (nm : Str) :
    with_name p nm = .error .invalidArgument ↔
      (validName nm = false ∨ name p = []) := by
  by_cases h1 : validName nm = true
  · by_cases h2 : name p = []
    · have he : with_name p nm = .error .invalidArgument := by
        simp only [with_name, h1, Bool.not_true, Bool.false_eq_true, if_false]
        rw [if_pos (by simp [h2])]
      simp [he, h2]
    · rw [with_name_ok p nm h1 h2]
      constructor
      · intro h
        exact Except.noConfusion h
      · rintro (e | e)
        · rw [h1] at e
          exact Bool.noConfusion e
        · exact absurd e h2
  · have h1' : validName nm = false := by simpa using h1
    have he : with_name p nm = .error .invalidArgument := by
      simp [with_name, h1']
    simp [he, h1']

theorem openPath_x_on_existing (mode : Str)
    (h : mode.headD (Char.ofNat 0) = 'x') :
    openPath true mode = .ok .invalidStream := by
  unfold openPath
  rw [h, show modeFlags 'x' = some (OpenFlags.mk false true true false false) from rfl]
  simp

theorem no_dot_segments (s : Str) : ∀ x ∈ (fromString s).parts, x ≠ ['.'] := by
  rcases fromString_cases s with ⟨e, _⟩ | ⟨e, _, _⟩ | ⟨e, _, _⟩
  · intro x hx
    rw [e] at hx
    exact (segOk_spec _ ((nparts_rel_inv s).2.2 x hx)).2.1
  · intro x hx
    rw [e] at hx
    rcases List.mem_append.mp hx with hx | hx
    · rw [List.mem_singleton.mp hx]
      decide
    · exact (segOk_spec _ ((nparts_rel_inv (s.drop 1)).2.2 x hx)).2.1
  · intro x hx
    rw [e] at hx
    rcases List.mem_append.mp hx with hx | hx
    · rcases List.mem_cons.mp hx with h1 | h1
      · rw [h1]; decide
      · rw [List.mem_singleton.mp h1]; decide
    · by_cases hS : nparts true (s.drop 1) = []
      · rw [if_pos hS] at hx
        rw [List.mem_singleton.mp hx]
        decide
      · rw [if_neg hS] at hx
        exact (normalSeg_spec _ (nparts_abs_normal (s.drop 1) x hx)).2.1

/-! ## The claims -/

/-- C1: `normpath` implements the stack-with-signed-depth normalization
algorithm — the input is split on the separator; empty and "." segments are
skipped; a ".." decrements the depth and pops the last pushed segment when
the depth stays ≥ 0, is pushed literally when the depth goes below 0 and
the input is not absolute, and is silently discarded when the depth goes
below 0 and the input is absolute; every other segment is pushed and
increments the depth; an absolute input keeps its leading separator in the
result. In particular normpath("/abc/.././xyz/") == "/xyz". -/
theorem c1_normpath_algorithm :
    normpath ("/abc/.././xyz/").toList = ("/xyz").toList ∧
    (∀ (abs : Bool) (l : Int) (P rest : List Str),
      normLoop abs l P ([] :: rest) = normLoop abs l P rest) ∧
    (∀ (abs : Bool) (l : Int) (P rest : List Str),
      normLoop abs l P (['.'] :: rest) = normLoop abs l P rest) ∧
    (∀ (abs : Bool) (l : Int) (P rest : List Str), l - 1 ≥ 0 →
      normLoop abs l P (dd :: rest) = normLoop abs (l - 1) P.dropLast rest) ∧
    (∀ (l : Int) (P rest : List Str), ¬ l - 1 ≥ 0 →
      normLoop false l P (dd :: rest) = normLoop false (l - 1) (P ++ [dd]) rest) ∧
    (∀ (l : Int) (P rest : List Str), ¬ l - 1 ≥ 0 →
      normLoop true l P (dd :: rest) = normLoop true (l - 1) P rest) ∧
    (∀ (abs : Bool) (l : Int) (P rest : List Str) (x : Str),
      ¬ (x = [] ∨ x = ['.']) → x ≠ dd →
      normLoop abs l P (x :: rest) = normLoop abs (l + 1) (P ++ [x]) rest) ∧
    (∀ s : Str, isabs s = true → normpath s = sep ++ pathJoin (nparts true s)) := by
  refine ⟨by decide, ?_, ?_, ?_, ?_, ?_, ?_, ?_⟩
  · intro abs l P rest
    exact normLoop_skip abs l P rest [] (Or.inl rfl)
  · intro abs l P rest
    exact normLoop_skip abs l P rest ['.'] (Or.inr rfl)
  · intro abs l P rest h
    exact normLoop_dd_pop abs l P rest h
  · intro l P rest h
    exact normLoop_dd_push l P rest h
  · intro l P rest h
    exact normLoop_dd_drop l P rest h
  · intro abs l P rest x h1 h2
    exact normLoop_push abs l P rest x h1 h2
  · intro s h
    exact normpath_abs_raw s h

/-- C1 witness: the pop and the relative push transition applied at concrete
states. -/
theorem c1_normpath_algorithm_witness :
    normLoop false 1 [['a']] (dd :: []) = normLoop false 0 [['a']].dropLast [] ∧
    normLoop false 0 [] (dd :: []) = normLoop false (-1) ([] ++ [dd]) [] :=
  ⟨c1_normpath_algorithm.2.2.2.1 false 1 [['a']] [] (by decide),
   c1_normpath_algorithm.2.2.2.2.1 0 [] [] (by decide)⟩

/-- C2 counterexample: the constructor invariant fails as stated. The input
"//" stores empty segments; "/.." stores ".." in an absolute path; "../a/.."
stores a non-leading resolvable ".."; the lexically equal inputs "/.." and
"/" produce different segment sequences; and `relative_to` can return a path
whose stored segments violate the invariant, so not every operation
preserves it. -/
theorem c2_constructor_invariant_counterexample :
    claimedInv (fromString ("//").toList) = false ∧
    claimedInv (fromString ("/..").toList) = false ∧
    claimedInv (fromString ("../a/..").toList) = false ∧
    fromString ("/..").toList ≠ fromString ("/").toList ∧
    relative_to (fromString ("../a/..").toList) (fromString ("..").toList) =
      .ok ⟨[['a'], dd]⟩ ∧
    claimedInv ⟨[['a'], dd]⟩ = false := by
  refine ⟨by decide, by decide, by decide, by decide, by rfl, by decide⟩

/-- C2 amended: for every input string no stored segment is "."; and for
every relative input the stored segments are non-empty, non-".",
separator-free, and every ".." occurs at a position where the running depth
is non-positive (not necessarily leading). Absolute inputs may store empty
segments (inputs beginning "//") or ".." segments (inputs like "/.."), and
`relative_to` may return non-normalized suffixes, so the remaining conjuncts
of the original claim do not hold. -/
theorem c2_constructor_invariant_amended :
    (∀ s : Str, ∀ x ∈ (fromString s).parts, x ≠ ['.']) ∧
    (∀ s : Str, isabs s = false →
      (∀ x ∈ (fromString s).parts, segOk x = true) ∧
      relNF 0 (fromString s).parts = true) := by
  refine ⟨no_dot_segments, ?_⟩
  intro s h
  rw [fromString_rel s h]
  exact ⟨(nparts_rel_inv s).2.2, (nparts_rel_inv s).2.1⟩

/-- C2 amended witness: the relative normal-form conjunct evaluated on the
concrete input "../a/..". -/
theorem c2_constructor_invariant_amended_witness :
    relNF 0 (fromString ("../a/..").toList).parts = true :=
  (c2_constructor_invariant_amended.2 (("../a/..").toList) (by decide)).2

/-- C3: normalization is idempotent and rendering round-trips — normalizing
the rendered result of normalizing s yields the same result as normalizing
s once: normpath(normpath(s)) == normpath(s) for every string s. -/
theorem c3_normpath_idempotent : ∀ s : Str, normpath (normpath s) = normpath s :=
  normpath_idem

/-- C4 counterexample: `relative_to` succeeds when the two segment sequences
are equal, although an equal sequence is not a strict prefix; the claim
"fails unless strict prefix" is false at self = other = PurePosixPath("abc"). -/
theorem c4_relative_to_counterexample :
    ¬ ((fromString ("abc").toList).parts <+: (fromString ("abc").toList).parts ∧
       (fromString ("abc").toList).parts ≠ (fromString ("abc").toList).parts) ∧
    relative_to (fromString ("abc").toList) (fromString ("abc").toList) =
      .ok ⟨[]⟩ := by
  constructor
  · rintro ⟨_, hne⟩
    exact hne rfl
  · rfl

/-- C4 amended: relative_to(other) fails with an InvalidArgument-kind error
exactly when other's segment sequence is not a (possibly equal) prefix of
self's segment sequence; on success it returns the path built from self's
segments beyond the shared prefix; and when other's segment sequence is
empty it succeeds for every self and returns self unchanged. -/
theorem c4_relative_to_amended : ∀ p other : PurePosixPath,
    (other.parts <+: p.parts →
      relative_to p other = .ok ⟨p.parts.drop other.parts.length⟩) ∧
    (¬ other.parts <+: p.parts →
      relative_to p other = .error .invalidArgument) ∧
    (other.parts = [] → relative_to p other = .ok p) := by
  intro p other
  refine ⟨relative_to_of_pre p other, relative_to_of_not_pre p other, ?_⟩
  intro h
  rw [relative_to_of_pre p other (by rw [h]; exact List.nil_prefix), h]
  rfl

/-- C4 amended witness: the success case applied to concrete paths. -/
theorem c4_relative_to_amended_witness :
    relative_to (fromString ("abc/def").toList) (fromString ("abc").toList) =
      .ok ⟨(fromString ("abc/def").toList).parts.drop
        (fromString ("abc").toList).parts.length⟩ :=
  (c4_relative_to_amended (fromString ("abc/def").toList)
    (fromString ("abc").toList)).1 (by decide)

/-- C5 counterexample: with p = PurePosixPath("//") and q = PurePosixPath("/"),
q's segments are a prefix of p's, yet q.joinpath(p.relative_to(q)) is
PurePosixPath("/") ≠ p, because p stores empty segments. -/
theorem c5_relative_to_inverse_counterexample :
    (fromString ("/").toList).parts <+: (fromString ("//").toList).parts ∧
    relative_to (fromString ("//").toList) (fromString ("/").toList) =
      .ok ⟨[[], []]⟩ ∧
    joinpath (fromString ("/").toList) ⟨[[], []]⟩ ≠ fromString ("//").toList := by
  refine ⟨by decide, by rfl, by decide⟩

/-- C5 amended: for constructor-built paths p and q such that q's segments
are a prefix of p's segments and p stores no empty segment (p's input does
not begin with a doubled separator), p.relative_to(q) succeeds and
q.joinpath(p.relative_to(q)) == p. -/
theorem c5_relative_to_inverse_amended : ∀ s t : Str,
    (fromString t).parts <+: (fromString s).parts →
    (∀ x ∈ (fromString s).parts, x ≠ []) →
    relative_to (fromString s) (fromString t) =
      .ok ⟨(fromString s).parts.drop (fromString t).parts.length⟩ ∧
    joinpath (fromString t)
      ⟨(fromString s).parts.drop (fromString t).parts.length⟩ = fromString s := by
  intro s t hpre hne
  exact ⟨relative_to_of_pre _ _ hpre, relative_to_inverse s t hpre hne⟩

/-- C5 amended witness: the inverse identity at p = "/abc/def", q = "/abc". -/
theorem c5_relative_to_inverse_amended_witness :
    relative_to (fromString ("/abc/def").toList) (fromString ("/abc").toList) =
      .ok ⟨(fromString ("/abc/def").toList).parts.drop
        (fromString ("/abc").toList).parts.length⟩ ∧
    joinpath (fromString ("/abc").toList)
      ⟨(fromString ("/abc/def").toList).parts.drop
        (fromString ("/abc").toList).parts.length⟩ =
      fromString ("/abc/def").toList :=
  c5_relative_to_inverse_amended (("/abc/def").toList) (("/abc").toList)
    (by decide) (by decide)

/-- C6: `join` is the left fold with string-concatenation semantics — a part
that starts with the separator discards everything accumulated so far;
otherwise the part is appended and exactly one separator is inserted before
the next part unless the accumulated text already ends in one; an empty
final part (of a list of two or more) forces a trailing separator; join
never re-normalizes, so the doubled separator of "/abc//" passes through:
join(["/abc//", "xyz", ""]) == "/abc//xyz/". -/
theorem c6_join_fold :
    pathJoin [("/abc//").toList, ("xyz").toList, ("").toList] =
      ("/abc//xyz/").toList ∧
    (∀ (acc acc2 b : Str) (r : List Str), startswith b sep = true →
      pathJoinGo acc (b :: r) = pathJoinGo acc2 (b :: r)) ∧
    (∀ (acc b : Str), startswith b sep = false → pathJoinGo acc [b] = acc ++ b) ∧
    (∀ (acc b : Str) (r : List Str), r ≠ [] → startswith b sep = false →
      endswith (acc ++ b) sep = false →
      pathJoinGo acc (b :: r) = pathJoinGo (acc ++ b ++ sep) r) ∧
    (∀ (acc b : Str) (r : List Str), r ≠ [] → startswith b sep = false →
      endswith (acc ++ b) sep = true →
      pathJoinGo acc (b :: r) = pathJoinGo (acc ++ b) r) ∧
    (∀ parts : List Str, 2 ≤ parts.length → parts.getLast? = some [] →
      endswith (pathJoin parts) sep = true) := by
  refine ⟨by decide, ?_, ?_, ?_, ?_, ?_⟩
  · intro acc acc2 b r h
    simp [pathJoinGo, h]
  · intro acc b h
    simp [pathJoinGo, h]
  · intro acc b r hr hb hE
    simp only [pathJoinGo, hb, Bool.false_eq_true, if_false, hE, Bool.not_false,
      Bool.true_and]
    rw [if_pos (by simp [List.isEmpty_iff, hr])]
  · intro acc b r hr hb hE
    simp only [pathJoinGo, hb, Bool.false_eq_true, if_false, hE, Bool.not_true,
      Bool.false_and, if_false]
  · intro parts h2 hl
    exact pathJoinGo_trailing parts [] hl (Or.inl h2)

/-- C6 witness: an empty final part forces a trailing separator at a
concrete input. -/
theorem c6_join_fold_witness :
    endswith (pathJoin [("a").toList, ("").toList]) sep = true :=
  c6_join_fold.2.2.2.2.2 [("a").toList, ("").toList] (by decide) (by decide)

/-- C7 counterexample: p = PurePosixPath("..") has the non-empty name ".."
but p.with_suffix(p.suffix()) is PurePosixPath(".") ≠ p. -/
theorem c7_with_suffix_counterexample :
    name (fromString ("..").toList) ≠ [] ∧
    with_suffix (fromString ("..").toList) (suffix (fromString ("..").toList)) =
      .ok ⟨[]⟩ ∧
    (⟨[]⟩ : PurePosixPath) ≠ fromString ("..").toList := by
  refine ⟨by decide, by rfl, by decide⟩

/-- C7 amended: the recomposition identity holds for every constructor-built
path whose name() is non-empty, whose stored segments are all non-empty, and
whose name's splitext root is not the solitary dot "." (this excludes names
like ".." and "..x", where stem() blanks the root): for such p,
p.with_suffix(p.suffix()) == p. -/
theorem c7_with_suffix_amended : ∀ s : Str,
    name (fromString s) ≠ [] →
    (∀ x ∈ (fromString s).parts, x ≠ []) →
    (splitext (name (fromString s))).1 ≠ ['.'] →
    with_suffix (fromString s) (suffix (fromString s)) = .ok (fromString s) := by
  intro s hname hnoempty hroot
  rcases fromString_cases s with ⟨e, _⟩ | ⟨e, _, _⟩ | ⟨e, _, _⟩
  · have hfs : fromString s = ⟨nparts false s⟩ := by rw [← e]
    rw [hfs] at hname hroot ⊢
    exact with_suffix_self_rel _ (nparts_rel_inv s).2.2 (nparts_rel_inv s).2.1
      hname hroot
  · have hfs : fromString s = ⟨[sep] ++ nparts false (s.drop 1)⟩ := by rw [← e]
    rw [hfs] at hname hroot ⊢
    exact with_suffix_self_abs _ (nparts_rel_inv (s.drop 1)).2.2
      (nparts_rel_inv (s.drop 1)).2.1 hname hroot
  · exfalso
    have hmem : ([] : Str) ∈ (fromString s).parts := by rw [e]; simp
    exact hnoempty [] hmem rfl

/-- C7 amended witness: the identity at the concrete path "abc.txt". -/
theorem c7_with_suffix_amended_witness :
    with_suffix (fromString ("abc.txt").toList)
      (suffix (fromString ("abc.txt").toList)) =
      .ok (fromString ("abc.txt").toList) :=
  c7_with_suffix_amended (("abc.txt").toList) (by decide) (by decide) (by decide)

/-- C8 counterexample: with_name("/x") succeeds — returning the absolute path
"/x" — although "/x" contains a separator, which the claimed validation rule
("one or more non-separator characters, not starting with a
separator-sentinel-equivalent...") rejects. -/
theorem c8_with_name_counterexample :
    sepC ∈ ("/x").toList ∧
    with_name (fromString ("abc").toList) ("/x").toList =
      .ok ⟨[sep, ['x']]⟩ := by
  refine ⟨by decide, by rfl⟩

/-- C8 amended: with_name(new_name) fails with an InvalidArgument-kind error
exactly when new_name fails the validation regex `[^.][^/]*` — that is, when
it is empty, starts with '.', or contains a separator after its first
character (the first character may be anything except '.', including the
separator itself) — or when the current path has no name; otherwise it
returns parent() joined with new_name. In particular
PurePosixPath("abc").with_name("def/") fails with InvalidArgument. -/
theorem c8_with_name_amended :
    (∀ (p : PurePosixPath) (nm : Str),
      (with_name p nm = .error .invalidArgument ↔
        (¬ ∃ c t, nm = c :: t ∧ c ≠ '.' ∧ ∀ x ∈ t, x ≠ sepC) ∨ name p = []) ∧
      (validName nm = true → name p ≠ [] →
        with_name p nm = .ok (joinpathStr (parent p) nm))) ∧
    with_name (fromString ("abc").toList) ("def/").toList =
      .error .invalidArgument := by
  constructor
  · intro p nm
    constructor
    · rw [with_name_error_iff p nm]
      constructor
      · rintro (e | e)
        · left
          intro hex
          rw [(validName_iff nm).mpr hex] at e
          exact Bool.noConfusion e
        · right
          exact e
      · rintro (hna | e)
        · left
          cases hv : validName nm
          · rfl
          · exact absurd ((validName_iff nm).mp hv) hna
        · right
          exact e
    · exact with_name_ok p nm
  · rfl

/-- C8 amended witness: the success case at a concrete path and name. -/
theorem c8_with_name_amended_witness :
    with_name (fromString ("abc").toList) ("xyz").toList =
      .ok (joinpathStr (parent (fromString ("abc").toList)) (("xyz").toList)) :=
  (c8_with_name_amended.1 (fromString ("abc").toList) (("xyz").toList)).2
    (by decide) (by decide)

/-- C9 counterexample: open("x") on an existing target returns normally with
the default-constructed invalid stream; it does not raise an OSFailure-kind
error (the filesystem probe is abstracted as the boolean argument). -/
theorem c9_open_exclusive_counterexample :
    openPath true ("x").toList = .ok .invalidStream ∧
    openPath true ("x").toList ≠ .error .osFailure := by
  refine ⟨rfl, ?_⟩
  intro h
  rw [show openPath true (("x").toList) = .ok .invalidStream from rfl] at h
  exact Except.noConfusion h

/-- C9 amended: opening in exclusive-create mode 'x' when the target exists
returns the default-constructed invalid stream (whose I/O operations fail)
rather than raising an error: for every mode string starting with 'x' and an
existing target, open returns that invalid stream. -/
theorem c9_open_exclusive_amended : ∀ mode : Str,
    mode.headD (Char.ofNat 0) = 'x' →
    openPath true mode = .ok .invalidStream :=
  fun mode h => openPath_x_on_existing mode h

/-- C9 amended witness: the mode "xt" used by the repository's own test. -/
theorem c9_open_exclusive_amended_witness :
    openPath true ("xt").toList = .ok .invalidStream :=
  c9_open_exclusive_amended (("xt").toList) (by decide)

/-- C10 counterexample: the discard identity fails for an absolute
PurePosixPath value that is reachable but not constructor-built —
PurePosixPath("//").parent() stores the segments ["/", ""] (its first
segment is the separator, so it is absolute in the claim's sense), renders
as "/", and joining re-parses that text, so p.joinpath(q) is
PurePosixPath("/") with segments ["/"] ≠ q, for any p. -/
theorem c10_join_absolute_counterexample :
    (parent (fromString ("//").toList)).parts = [sep, []] ∧
    is_absolute (parent (fromString ("//").toList)) = true ∧
    joinpath (fromString ("abc").toList) (parent (fromString ("//").toList)) =
      ⟨[sep]⟩ ∧
    (⟨[sep]⟩ : PurePosixPath) ≠ parent (fromString ("//").toList) := by
  refine ⟨by decide, by decide, by decide, by decide⟩

/-- C10 amended: joining with an absolute right-hand operand discards the
left-hand path entirely, for every PurePosixPath p and every
constructor-built absolute path q: p.joinpath(q) == q (and operator/
delegates to joinpath, so p / q == q as well). Absolute values outside the
constructor's image, such as PurePosixPath("//").parent() with segments
["/", ""], escape the identity because joinpath re-parses the rendered
text. -/
theorem c10_join_absolute : ∀ (p : PurePosixPath) (t : Str),
    is_absolute (fromString t) = true →
    joinpath p (fromString t) = fromString t := by
  intro p t h
  show fromString (pathJoin [render p, render (fromString t)]) = fromString t
  rw [pathJoin_pair_abs _ _ (render_starts_sep t h)]
  exact render_roundtrip t

/-- C10 amended witness: PurePosixPath("abc").joinpath(PurePosixPath("/def"))
is PurePosixPath("/def"). -/
theorem c10_join_absolute_witness :
    joinpath (fromString ("abc").toList) (fromString ("/def").toList) =
      fromString ("/def").toList :=
  c10_join_absolute (fromString ("abc").toList) (("/def").toList) (by decide)

end Pypp
